import Mathlib

/-! Parallel histogram (histogram.c): shallow embedding and verification.

The C program builds a histogram of `data_count` measurements over `bin_count`
equal-width bins with `thread_count` worker threads.  Every worker runs
`thread_do_work`: a local accumulation phase over its slice of the data, a
barrier, and a consolidation phase that sums columns of the worker-local
matrix into the global `bin_counts`.

Modelling conventions.

* `float` values are read as exact rationals (`ℚ`); `Which_bin` only compares
  them, `Gen_bins` is read over exact arithmetic.
* `int` counts, sizes and worker ids are natural numbers; the search bounds
  `bottom`, `top`, `mid` of `Which_bin` and the counters stored in the arrays are
  integers (`top` can become `-1`, an unwritten counter can hold any value).
  Signed overflow is undefined in C and is outside the model.
* A heap block is a list; an access outside the block, the fatal `exit(-1)` of
  `Which_bin` and an exhausted loop bound of the model are the three faults of
  `Fault`, so every function returns `Except Fault _`.
* A block returned by `malloc` has unspecified content: it is a parameter.
-/

namespace Histogram

/-- Ways a run of the program can stop without a result. -/
inductive Fault where
  /-- The branch `fprintf(stderr, ...); exit(-1);` of `Which_bin` (lines 296-299). -/
  | exit_failure
  /-- An array access outside the allocated block. -/
  | out_of_bounds
  /-- The iteration bound given to a `while` loop of the model was too small. -/
  | out_of_fuel
  deriving DecidableEq, Repr

/-- Read `a[i]` for a natural index. -/
def rd {α : Type} (a : List α) (i : Nat) : Except Fault α :=
  match a[i]? with
  | some v => .ok v
  | none => .error .out_of_bounds

/-- Write `a[i] = v` for a natural index. -/
def wr {α : Type} (a : List α) (i : Nat) (v : α) : Except Fault (List α) :=
  if i < a.length then .ok (a.set i v) else .error .out_of_bounds

/-- Read `a[i]` for a C `int` index. -/
def rdI {α : Type} (a : List α) (i : Int) : Except Fault α :=
  if 0 ≤ i then rd a i.toNat else .error .out_of_bounds

/-- Write `a[i] = v` for a C `int` index. -/
def wrI {α : Type} (a : List α) (i : Int) (v : α) : Except Fault (List α) :=
  if 0 ≤ i then wr a i.toNat v else .error .out_of_bounds

/-- The loop `for (i = lo; n-- > 0; i++) body(i)`: `n` iterations of `body`
starting at index `i`.  The C loop `for (i = lo; i < hi; i++)` is
`for_up body (hi - lo) lo`. -/
def for_up {σ : Type} (body : Nat → σ → Except Fault σ) : Nat → Nat → σ → Except Fault σ
  | 0, _, s => .ok s
  | n + 1, i, s =>
    match body i s with
    | .ok s1 => for_up body n (i + 1) s1
    | .error e => .error e

/-- The global variables of histogram.c (lines 66-73). -/
structure Globals where
  local_bins : List Int
  data : List ℚ
  bin_counts : List Int
  min_meas : ℚ
  max_meas : ℚ
  bin_maxes : List ℚ
  bin_count : Nat
  thread_count : Nat
  data_count : Nat

/-! ## Gen_bins (lines 233-255) -/

/-- Body of the loop of `Gen_bins` (lines 245-246), on the pair
`(bin_maxes, bin_counts)`. -/
def Gen_bins_body (min_meas bin_width : ℚ) (i : Nat) (s : List ℚ × List Int) :
    Except Fault (List ℚ × List Int) :=
  match wr s.1 i (min_meas + ((i + 1 : Nat) : ℚ) * bin_width) with
  | .ok bm =>
    match wr s.2 i 0 with
    | .ok bc => .ok (bm, bc)
    | .error e => .error e
  | .error e => .error e

/-- The function `Gen_bins` (lines 233-255): returns the new `bin_maxes` and
`bin_counts`. -/
def Gen_bins (min_meas max_meas : ℚ) (bin_maxes : List ℚ) (bin_counts : List Int)
    (bin_count : Nat) : Except Fault (List ℚ × List Int) :=
  let bin_width := (max_meas - min_meas) / (bin_count : ℚ)
  for_up (Gen_bins_body min_meas bin_width) bin_count 0 (bin_maxes, bin_counts)

/-! ## Which_bin (lines 275-300) -/

/-- The `while (bottom <= top)` loop of `Which_bin` (lines 284-299), with an
iteration bound.  `Int.tdiv` is the truncating division of C. -/
def Which_bin_loop (data : ℚ) (bin_maxes : List ℚ) (min_meas : ℚ) :
    Nat → Int → Int → Except Fault Int
  | 0, _, _ => .error .out_of_fuel
  | fuel + 1, bottom, top =>
    if bottom ≤ top then
      let mid := Int.tdiv (bottom + top) 2
      match rdI bin_maxes mid with
      | .error e => .error e
      | .ok bin_max =>
        match (if mid = 0 then .ok min_meas else rdI bin_maxes (mid - 1)) with
        | .error e => .error e
        | .ok bin_min =>
          if data ≥ bin_max then
            Which_bin_loop data bin_maxes min_meas fuel (mid + 1) top
          else if data < bin_min then
            Which_bin_loop data bin_maxes min_meas fuel bottom (mid - 1)
          else
            .ok mid
    else
      .error .exit_failure

/-- The function `Which_bin` (lines 275-300).  The loop runs at most
`bin_count` times, so `bin_count + 1` evaluations of its condition suffice. -/
def Which_bin (data : ℚ) (bin_maxes : List ℚ) (bin_count : Nat) (min_meas : ℚ) :
    Except Fault Int :=
  Which_bin_loop data bin_maxes min_meas (bin_count + 1) 0 ((bin_count : Int) - 1)

/-- Lower bound of bin `i`: `bin_maxes[i-1]`, with `bin_maxes[-1] = min_meas`
(header note 3, lines 13-14; the expression of line 287). -/
def lower_bound (bin_maxes : List ℚ) (min_meas : ℚ) (i : Nat) : ℚ :=
  if i = 0 then min_meas else bin_maxes.getD (i - 1) 0

/-- Upper bound of bin `i`: `bin_maxes[i]`. -/
def upper_bound (bin_maxes : List ℚ) (i : Nat) : ℚ :=
  bin_maxes.getD i 0

/-- Measurement `x` lies in bin `i`: `lower_bound[i] <= x < upper_bound[i]`. -/
def in_bin (bin_maxes : List ℚ) (min_meas x : ℚ) (i : Nat) : Prop :=
  lower_bound bin_maxes min_meas i ≤ x ∧ x < upper_bound bin_maxes i

instance (bin_maxes : List ℚ) (min_meas x : ℚ) (i : Nat) :
    Decidable (in_bin bin_maxes min_meas x i) := by
  unfold in_bin; exact inferInstance

/-- Brute-force locator of the specification: scan the bins left to right and
return the first index `i` with `lower_bound[i] <= x < upper_bound[i]`. -/
def linear_scan (x : ℚ) (bin_maxes : List ℚ) (bin_count : Nat) (min_meas : ℚ) : Option Nat :=
  (List.range bin_count).find? (fun i => decide (in_bin bin_maxes min_meas x i))


/-- The table is weakly increasing, in index form: `bin_maxes[i] <= bin_maxes[j]`
for `i <= j` inside the table. -/
def MonoTable (bin_maxes : List ℚ) : Prop :=
  ∀ i j : Nat, i ≤ j → j < bin_maxes.length → upper_bound bin_maxes i ≤ upper_bound bin_maxes j

/-! ## thread_do_work (lines 345-433) -/

/-- Run `f a` for the elements `a` of a list, left to right, threading the
state and stopping at the first fault. -/
def run_list {α σ : Type} (f : α → σ → Except Fault σ) : List α → σ → Except Fault σ
  | [], s => .ok s
  | a :: as, s =>
    match f a s with
    | .ok s1 => run_list f as s1
    | .error e => .error e

/-- The value of `num_elements` after lines 349-355.  `floor` of an `int`
quotient is that quotient. -/
def num_elements (data_count thread_count id : Nat) : Nat :=
  if (id : Int) = (thread_count : Int) - 1 then
    data_count / thread_count + data_count % thread_count
  else
    data_count / thread_count

/-- The value of `start_n` (line 359). -/
def start_n (data_count thread_count id : Nat) : Nat :=
  data_count / thread_count * id

/-- The value of `stop_n` (line 360). -/
def stop_n (data_count thread_count id : Nat) : Nat :=
  start_n data_count thread_count id + num_elements data_count thread_count id

/-- Body of the local accumulation loop (lines 366-369) of worker `id` at data
index `k`. -/
def local_body (id : Nat) (k : Nat) (g : Globals) : Except Fault Globals := do
  let x ← rd g.data k
  let bin ← Which_bin x g.bin_maxes g.bin_count g.min_meas
  let j : Int := ((id * g.bin_count : Nat) : Int) + bin
  let c ← rdI g.local_bins j
  let lb ← wrI g.local_bins j (c + 1)
  pure { g with local_bins := lb }

/-- Local accumulation phase of worker `id` (lines 347-370):
`for (k = start_n; k < stop_n; k++)`. -/
def local_phase (id : Nat) (g : Globals) : Except Fault Globals :=
  let start := start_n g.data_count g.thread_count id
  let stop := stop_n g.data_count g.thread_count id
  for_up (local_body id) (stop - start) start g

/-- Body of the summing loop (lines 410 and 424): `sum += local_bins[m + k*bin_count]`. -/
def column_sum_body (local_bins : List Int) (bin_count m : Nat) (k : Nat) (sum : Int) :
    Except Fault Int := do
  let v ← rd local_bins (m + k * bin_count)
  pure (sum + v)

/-- The statements executed for one bin `m` of a worker's share (lines 404-413,
and lines 421-427 with `m = id`): sum column `m` of the worker-local matrix and
store the sum in `bin_counts[m]`. -/
def reduce_bin (m : Nat) (g : Globals) : Except Fault Globals := do
  let sum ← for_up (column_sum_body g.local_bins g.bin_count m) g.thread_count 0 0
  let bc ← wr g.bin_counts m sum
  pure { g with bin_counts := bc }

/-- Values taken by `m` in `for (m = ...; m < bin_count; m = m+thread_count)`
(line 402), in order, from the current value of `m`; the first argument bounds
the number of evaluations of the loop condition. -/
def stripe_bins (bin_count thread_count : Nat) : Nat → Nat → Except Fault (List Nat)
  | 0, _ => .error .out_of_fuel
  | fuel + 1, m =>
    if m < bin_count then
      match stripe_bins bin_count thread_count fuel (m + thread_count) with
      | .ok ms => .ok (m :: ms)
      | .error e => .error e
    else
      .ok []

/-- The value of `bins_per_thread` after lines 393-398. -/
def bins_per_thread (bin_count thread_count id : Nat) : Nat :=
  if id < bin_count % thread_count then bin_count / thread_count + 1
  else bin_count / thread_count

/-- The bins `m` for which worker `id` executes `bin_counts[m] = sum`, in
execution order: the control structure of lines 391-431 (striped loop when
`bin_count > thread_count`, otherwise bin `id` when `id < bin_count`). -/
def owned_bins (bin_count thread_count id : Nat) : Except Fault (List Nat) :=
  if bin_count > thread_count then
    stripe_bins bin_count thread_count (bin_count + 1) id
  else if id < bin_count then
    .ok [id]
  else
    .ok []

/-- Consolidation phase of worker `id` (lines 387-431). -/
def consolidation_phase (id : Nat) (g : Globals) : Except Fault Globals := do
  let ms ← owned_bins g.bin_count g.thread_count id
  run_list reduce_bin ms g

/-- All workers run `thread_do_work` (lines 119-128).  The barrier of lines
372-384 puts every local phase before every consolidation phase; inside a phase
the workers run in the given orders. -/
def run_threads (locals consolidations : List Nat) (g : Globals) : Except Fault Globals := do
  let g1 ← run_list local_phase locals g
  run_list consolidation_phase consolidations g1

/-- The function `main` from the allocations to the joins (lines 89-128).  The
blocks returned by `malloc` for `bin_maxes`, `bin_counts` and `local_bins` are
the parameters `m_bin_maxes`, `m_bin_counts`, `m_local_bins`; `data` is the
block filled by `Gen_data`. -/
def main (bin_count : Nat) (min_meas max_meas : ℚ) (data_count thread_count : Nat)
    (m_bin_maxes : List ℚ) (m_bin_counts : List Int) (data : List ℚ)
    (m_local_bins : List Int) : Except Fault Globals := do
  let (bm, bc) ← Gen_bins min_meas max_meas m_bin_maxes m_bin_counts bin_count
  run_threads (List.range thread_count) (List.range thread_count)
    { local_bins := m_local_bins, data := data, bin_counts := bc,
      min_meas := min_meas, max_meas := max_meas, bin_maxes := bm,
      bin_count := bin_count, thread_count := thread_count, data_count := data_count }

/-- Sizes of the blocks `main` allocates (lines 90-94). -/
def Allocated (bin_count data_count thread_count : Nat)
    (m_bin_maxes : List ℚ) (m_bin_counts : List Int) (data : List ℚ)
    (m_local_bins : List Int) : Prop :=
  m_bin_maxes.length = bin_count ∧ m_bin_counts.length = bin_count ∧
  data.length = data_count ∧ m_local_bins.length = bin_count * thread_count

/-- Number of indices `k` in `[0, data_count)` with
`lower_bound[m] <= data[k] < upper_bound[m]`. -/
def bin_population (bin_maxes : List ℚ) (min_meas : ℚ) (data : List ℚ) (data_count m : Nat) :
    Nat :=
  ((List.range data_count).filter
    (fun k => decide (in_bin bin_maxes min_meas (data.getD k 0) m))).length

/-- Sum of column `m` of the worker-local matrix:
`sum over k in [0, thread_count) of local_bins[k*bin_count + m]`. -/
def column_total (local_bins : List Int) (bin_count thread_count m : Nat) : Int :=
  ((List.range thread_count).map (fun k => local_bins.getD (k * bin_count + m) 0)).sum

/-- The state `g2` differs from `g` at most in `bin_counts`. -/
def only_bin_counts_changed (g g2 : Globals) : Prop :=
  g2 = { g with bin_counts := g2.bin_counts }

/-- The state `g2` differs from `g` at most in `local_bins`. -/
def only_local_bins_changed (g g2 : Globals) : Prop :=
  g2 = { g with local_bins := g2.local_bins }

/-- A state with 3 bins and 2 workers, used to instantiate the theorems on the
consolidation phase: `local_bins` holds the rows `1 2 3` and `4 5 6`,
`bin_counts` holds `9 9 9`. -/
def sample_globals : Globals :=
  { local_bins := [1, 2, 3, 4, 5, 6], data := [], bin_counts := [9, 9, 9],
    min_meas := 0, max_meas := 1, bin_maxes := [1/3, 2/3, 1],
    bin_count := 3, thread_count := 2, data_count := 0 }

/-! ## The barrier (lines 77-79 and 372-384)

A step relation over the control points of the workers.  `pthread_mutex_lock`
returns when the mutex is free; `pthread_cond_wait` releases the mutex and
blocks, and returns 0 after it was woken and has taken the mutex again;
`pthread_cond_broadcast` wakes every blocked waiter.  POSIX allows a wait to
wake without a broadcast (a spurious wakeup): that is the event `spurious`. -/

/-- Control point of a worker in `thread_do_work`. -/
inductive Pc where
  /-- Lines 347-370: the local accumulation phase is not finished. -/
  | accumulating
  /-- Line 373: calling `pthread_mutex_lock`. -/
  | at_lock
  /-- Lines 374-375: holds the mutex, about to run `counter++` and the test. -/
  | arrived
  /-- Line 382: blocked inside `pthread_cond_wait`, mutex released. -/
  | waiting
  /-- Line 382: woken inside `pthread_cond_wait`, has to take the mutex again. -/
  | woken
  /-- Line 384: holds the mutex, about to call `pthread_mutex_unlock`. -/
  | at_unlock
  /-- Lines 387-431: in the consolidation phase. -/
  | consolidating
  /-- Line 432: returned. -/
  | finished
  deriving DecidableEq, Repr

/-- Shared state of the barrier: the control point of every worker, the global
`counter` (line 77), the holder of `mutex` and `thread_count`. -/
structure Sync where
  pcs : List Pc
  counter : Nat
  mutex : Option Nat
  thread_count : Nat
  deriving DecidableEq, Repr

/-- What the scheduler can do next. -/
inductive Event where
  /-- Worker `id` runs its next statement. -/
  | step (id : Nat)
  /-- The wait of worker `id` wakes although no broadcast was sent. -/
  | spurious (id : Nat)
  deriving DecidableEq, Repr

/-- State after `main` created the workers: `counter = 0` (line 77), mutex
free, every worker at the start of `thread_do_work`. -/
def sync_init (thread_count : Nat) : Sync :=
  { pcs := List.replicate thread_count Pc.accumulating, counter := 0, mutex := none,
    thread_count := thread_count }

/-- Effect of `pthread_cond_broadcast` on the workers: every blocked waiter is
woken. -/
def broadcast (pcs : List Pc) : List Pc :=
  pcs.map (fun pc => if pc = Pc.waiting then Pc.woken else pc)

/-- One event of the barrier protocol of lines 372-384; `none` when the event
is not enabled (the worker is blocked or does not exist). -/
def sync_step (s : Sync) : Event → Option Sync
  | .step id =>
    match s.pcs[id]? with
    | none => none
    | some .accumulating => some { s with pcs := s.pcs.set id .at_lock }
    | some .at_lock =>
      if s.mutex = none then some { s with pcs := s.pcs.set id .arrived, mutex := some id }
      else none
    | some .arrived =>
      if s.counter + 1 = s.thread_count then
        some { s with counter := 0, pcs := (broadcast s.pcs).set id .at_unlock }
      else
        some { s with counter := s.counter + 1, pcs := s.pcs.set id .waiting, mutex := none }
    | some .waiting => none
    | some .woken =>
      if s.mutex = none then some { s with pcs := s.pcs.set id .at_unlock, mutex := some id }
      else none
    | some .at_unlock => some { s with pcs := s.pcs.set id .consolidating, mutex := none }
    | some .consolidating => some { s with pcs := s.pcs.set id .finished }
    | some .finished => none
  | .spurious id =>
    match s.pcs[id]? with
    | some .waiting => some { s with pcs := s.pcs.set id .woken }
    | _ => none

/-- Run a schedule, a list of events, from a state. -/
def run_events (s : Sync) : List Event → Option Sync
  | [] => some s
  | e :: es =>
    match sync_step s e with
    | some s1 => run_events s1 es
    | none => none

/-- The ordering the barrier has to enforce is broken in a state: a worker is
in (or past) its consolidation phase while another has not finished its local
accumulation phase. -/
def order_violated (s : Sync) : Prop :=
  Pc.accumulating ∈ s.pcs ∧ (Pc.consolidating ∈ s.pcs ∨ Pc.finished ∈ s.pcs)

instance (s : Sync) : Decidable (order_violated s) := by
  unfold order_violated; exact inferInstance

/-- Every worker is before the release of the barrier. -/
def before_release (pcs : List Pc) : Prop :=
  ∀ pc ∈ pcs, pc = Pc.accumulating ∨ pc = Pc.at_lock ∨ pc = Pc.arrived ∨ pc = Pc.waiting

/-- Every worker has arrived at the barrier and was released. -/
def after_release (pcs : List Pc) : Prop :=
  ∀ pc ∈ pcs, pc = Pc.woken ∨ pc = Pc.at_unlock ∨ pc = Pc.consolidating ∨ pc = Pc.finished

/-- Invariant of the barrier when no wait wakes spuriously: either nobody was
released and `counter` is the number of blocked waiters, or everybody has
arrived. -/
def barrier_inv (s : Sync) : Prop :=
  s.pcs.length = s.thread_count ∧
  ((before_release s.pcs ∧ s.counter = s.pcs.count Pc.waiting) ∨ after_release s.pcs)

/-- Number of indices `k` in `[lo, lo + n)` with
`lower_bound[m] <= data[k] < upper_bound[m]`. -/
def slice_population (bin_maxes : List ℚ) (min_meas : ℚ) (data : List ℚ) (lo n m : Nat) : Nat :=
  ((List.range' lo n).filter
    (fun k => decide (in_bin bin_maxes min_meas (data.getD k 0) m))).length

/-- The bin table of a state is a weakly increasing table of `bin_count >= 1`
thresholds and every measurement lies in `[min_meas, bin_maxes[bin_count-1])`. -/
def table_ok (g : Globals) : Prop :=
  1 ≤ g.bin_count ∧ g.bin_maxes.length = g.bin_count ∧ MonoTable g.bin_maxes ∧
  ∀ k, k < g.data.length →
    g.min_meas ≤ g.data.getD k 0 ∧ g.data.getD k 0 < upper_bound g.bin_maxes (g.bin_count - 1)

/-- Number of measurements of the slice of worker `id` that lie in bin `m`. -/
def worker_population (g : Globals) (id m : Nat) : Nat :=
  slice_population g.bin_maxes g.min_meas g.data
    (start_n g.data_count g.thread_count id)
    (stop_n g.data_count g.thread_count id - start_n g.data_count g.thread_count id) m

/-- A state with 3 bins and 5 workers (more workers than bins): every entry
of `local_bins` is 1, `bin_counts` holds `9 9 9`. -/
def sample_globals_5_3 : Globals :=
  { local_bins := List.replicate 15 1, data := [], bin_counts := [9, 9, 9],
    min_meas := 0, max_meas := 1, bin_maxes := [1/3, 2/3, 1],
    bin_count := 3, thread_count := 5, data_count := 0 }

/-- The loop of `Which_bin` (lines 284-299) together with the number of times
its body (lines 285-293) is entered.  The first component is `Which_bin_loop`. -/
def Which_bin_loop_count (data : ℚ) (bin_maxes : List ℚ) (min_meas : ℚ) :
    Nat → Int → Int → Except Fault Int × Nat
  | 0, _, _ => (.error .out_of_fuel, 0)
  | fuel + 1, bottom, top =>
    if bottom ≤ top then
      let mid := Int.tdiv (bottom + top) 2
      match rdI bin_maxes mid with
      | .error e => (.error e, 1)
      | .ok bin_max =>
        match (if mid = 0 then .ok min_meas else rdI bin_maxes (mid - 1)) with
        | .error e => (.error e, 1)
        | .ok bin_min =>
          if data ≥ bin_max then
            let r := Which_bin_loop_count data bin_maxes min_meas fuel (mid + 1) top
            (r.1, r.2 + 1)
          else if data < bin_min then
            let r := Which_bin_loop_count data bin_maxes min_meas fuel bottom (mid - 1)
            (r.1, r.2 + 1)
          else
            (.ok mid, 1)
    else
      (.error .exit_failure, 0)

/-- Variant of the loop of `Which_bin` with the two tests of lines 288-291 in
the other order: `data < bin_min` is tested before `data >= bin_max`. -/
def Which_bin_swapped_loop (data : ℚ) (bin_maxes : List ℚ) (min_meas : ℚ) :
    Nat → Int → Int → Except Fault Int
  | 0, _, _ => .error .out_of_fuel
  | fuel + 1, bottom, top =>
    if bottom ≤ top then
      let mid := Int.tdiv (bottom + top) 2
      match rdI bin_maxes mid with
      | .error e => .error e
      | .ok bin_max =>
        match (if mid = 0 then .ok min_meas else rdI bin_maxes (mid - 1)) with
        | .error e => .error e
        | .ok bin_min =>
          if data < bin_min then
            Which_bin_swapped_loop data bin_maxes min_meas fuel bottom (mid - 1)
          else if data ≥ bin_max then
            Which_bin_swapped_loop data bin_maxes min_meas fuel (mid + 1) top
          else
            .ok mid
    else
      .error .exit_failure

/-- Variant of `Which_bin` that tests `data < bin_min` before
`data >= bin_max`. -/
def Which_bin_swapped (data : ℚ) (bin_maxes : List ℚ) (bin_count : Nat) (min_meas : ℚ) :
    Except Fault Int :=
  Which_bin_swapped_loop data bin_maxes min_meas (bin_count + 1) 0 ((bin_count : Int) - 1)

/-- Variant of the consolidation phase that always takes the first branch
(lines 393-414): the striped loop, whatever `bin_count` and `thread_count`. -/
def consolidation_striped (id : Nat) (g : Globals) : Except Fault Globals := do
  let ms ← stripe_bins g.bin_count g.thread_count (g.bin_count + 1) id
  run_list reduce_bin ms g

/-- `Which_bin(data[k]) == m` in state `g`. -/
def lands_in (g : Globals) (k m : Nat) : Bool :=
  match Which_bin (g.data.getD k 0) g.bin_maxes g.bin_count g.min_meas with
  | .ok b => decide (b = (m : Int))
  | .error _ => false

/-- Number of indices `k` in `[lo, lo + n)` with `Which_bin(data[k]) == m`. -/
def slice_hits (g : Globals) (lo n m : Nat) : Nat :=
  ((List.range' lo n).filter (fun k => lands_in g k m)).length

/-- A state with 2 bins over `[0, 1)`, 2 workers and 4 measurements; the
block of `local_bins` holds `5 0 0 7`. -/
def sample_globals_2_2 : Globals :=
  { local_bins := [5, 0, 0, 7], data := [1/4, 3/4, 1/8, 7/8], bin_counts := [0, 0],
    min_meas := 0, max_meas := 1, bin_maxes := [1/2, 1],
    bin_count := 2, thread_count := 2, data_count := 4 }

/-- Body of the single-threaded counting loop that `main` keeps in a comment
(lines 112-115): `bin = Which_bin(data[i], bin_maxes, bin_count, min_meas);
bin_counts[bin]++;`. -/
def single_threaded_body (data : List ℚ) (bin_maxes : List ℚ) (bin_count : Nat) (min_meas : ℚ)
    (i : Nat) (bin_counts : List Int) : Except Fault (List Int) := do
  let x ← rd data i
  let bin ← Which_bin x bin_maxes bin_count min_meas
  let c ← rdI bin_counts bin
  wrI bin_counts bin (c + 1)

/-- The single-threaded counting loop `for (i = 0; i < data_count; i++)` of
lines 112-115, from given counts. -/
def single_threaded_counts (data : List ℚ) (bin_maxes : List ℚ) (bin_count : Nat)
    (min_meas : ℚ) (data_count : Nat) (bin_counts : List Int) : Except Fault (List Int) :=
  for_up (single_threaded_body data bin_maxes bin_count min_meas) data_count 0 bin_counts

/-- The single-threaded version of `main`: `Gen_bins` (which clears
`bin_counts`), then the counting loop of lines 112-115; returns `bin_counts`. -/
def main_single_threaded (bin_count : Nat) (min_meas max_meas : ℚ) (data_count : Nat)
    (m_bin_maxes : List ℚ) (m_bin_counts : List Int) (data : List ℚ) :
    Except Fault (List Int) := do
  let (bm, bc) ← Gen_bins min_meas max_meas m_bin_maxes m_bin_counts bin_count
  single_threaded_counts data bm bin_count min_meas data_count bc

/-! # Theorems -/

/-! ## Array accesses -/

theorem rd_of_lt {a : List ℚ} {i : Nat} (h : i < a.length) : rd a i = .ok (a.getD i 0) := by
  simp [rd, List.getD, List.getElem?_eq_getElem h]

theorem rdI_ofNat {a : List ℚ} {i : Nat} (h : i < a.length) :
    rdI a (i : Int) = .ok (a.getD i 0) := by
  simp [rdI, rd_of_lt h]

/-! ## Which_bin -/

theorem tdiv_two_bounds {bottom top : Int} (h0 : 0 ≤ bottom) (h : bottom ≤ top) :
    bottom ≤ Int.tdiv (bottom + top) 2 ∧ Int.tdiv (bottom + top) 2 ≤ top := by
  rw [Int.tdiv_eq_ediv (by omega) (by omega)]
  constructor <;> omega

/-- Specification of the search loop on a weakly increasing table: it either
returns an index of the current range whose bin holds `x`, or takes the fatal
branch, and then no bin of the current range holds `x`.  It never reads outside
the table and never exhausts its iteration bound. -/
theorem Which_bin_loop_spec (x : ℚ) (bm : List ℚ) (mn : ℚ) (hmono : MonoTable bm) :
    ∀ (fuel : Nat) (bottom top : Int), 0 ≤ bottom → top < bm.length →
      (top + 1 - bottom).toNat < fuel →
      (∃ i : Nat, Which_bin_loop x bm mn fuel bottom top = .ok (i : Int) ∧
          bottom ≤ (i : Int) ∧ (i : Int) ≤ top ∧ in_bin bm mn x i) ∨
      (Which_bin_loop x bm mn fuel bottom top = .error .exit_failure ∧
          ∀ i : Nat, bottom ≤ (i : Int) → (i : Int) ≤ top → ¬ in_bin bm mn x i) := by
  intro fuel
  induction fuel with
  | zero => intro bottom top _ _ h; omega
  | succ fuel ih =>
    intro bottom top h0 htop hfuel
    by_cases hbt : bottom ≤ top
    · obtain ⟨hlo, hhi⟩ := tdiv_two_bounds h0 hbt
      obtain ⟨m, hm⟩ := Int.eq_ofNat_of_zero_le (le_trans h0 hlo)
      rw [hm] at hlo hhi
      have hmlen : m < bm.length := by omega
      have hmin : (if (m : Int) = 0 then (Except.ok mn : Except Fault ℚ)
          else rdI bm ((m : Int) - 1)) = .ok (lower_bound bm mn m) := by
        by_cases hz : m = 0
        · simp [hz, lower_bound]
        · have h1 : ((m : Int) - 1) = ((m - 1 : Nat) : Int) := by omega
          have h2 : ¬ ((m : Int) = 0) := by omega
          rw [if_neg h2, h1, rdI_ofNat (by omega)]
          simp [lower_bound, hz]
      rw [Which_bin_loop, if_pos hbt]
      simp only [hm, rdI_ofNat hmlen, hmin]
      by_cases hge : x ≥ bm.getD m 0
      · rw [if_pos hge]
        rcases ih ((m : Int) + 1) top (by omega) htop (by omega) with
          ⟨i, hr, h1, h2, h3⟩ | ⟨hr, hno⟩
        · exact Or.inl ⟨i, hr, by omega, h2, h3⟩
        · refine Or.inr ⟨hr, ?_⟩
          intro i hi1 hi2 hin
          by_cases him : i ≤ m
          · have := hmono i m him hmlen
            have hlt := hin.2
            unfold upper_bound at this hlt
            exact absurd (lt_of_lt_of_le hlt (le_trans this hge)) (lt_irrefl _)
          · exact hno i (by omega) hi2 hin
      · rw [if_neg hge]
        by_cases hlt : x < lower_bound bm mn m
        · rw [if_pos hlt]
          rcases ih bottom ((m : Int) - 1) h0 (by omega) (by omega) with
            ⟨i, hr, h1, h2, h3⟩ | ⟨hr, hno⟩
          · exact Or.inl ⟨i, hr, h1, by omega, h3⟩
          · refine Or.inr ⟨hr, ?_⟩
            intro i hi1 hi2 hin
            by_cases him : i < m
            · exact hno i hi1 (by omega) hin
            · have hle := hin.1
              by_cases hi0 : i = m
              · rw [hi0] at hle
                exact absurd (lt_of_lt_of_le hlt hle) (lt_irrefl _)
              · have hi : i ≠ 0 := by omega
                have hmo := hmono m (i - 1) (by omega) (by omega)
                simp only [lower_bound, if_neg hi] at hle
                unfold upper_bound at hmo
                have : x < bm.getD m 0 := not_le.mp hge
                exact absurd (lt_of_lt_of_le this (le_trans hmo hle)) (lt_irrefl _)
        · rw [if_neg hlt]
          exact Or.inl ⟨m, rfl, hlo, hhi, ⟨not_lt.mp hlt, not_le.mp hge⟩⟩
    · rw [Which_bin_loop, if_neg hbt]
      exact Or.inr ⟨rfl, fun i h1 h2 _ => hbt (le_trans h1 h2)⟩

/-- Specification of `Which_bin` on a weakly increasing table of `bin_count`
thresholds. -/
theorem Which_bin_spec (x : ℚ) (bm : List ℚ) (bin_count : Nat) (mn : ℚ)
    (hlen : bm.length = bin_count) (hmono : MonoTable bm) :
    (∃ i : Nat, Which_bin x bm bin_count mn = .ok (i : Int) ∧ i < bin_count ∧
        in_bin bm mn x i) ∨
    (Which_bin x bm bin_count mn = .error .exit_failure ∧
        ∀ i : Nat, i < bin_count → ¬ in_bin bm mn x i) := by
  rcases Which_bin_loop_spec x bm mn hmono (bin_count + 1) 0 ((bin_count : Int) - 1)
      (le_refl _) (by omega) (by omega) with ⟨i, hr, _, h2, h3⟩ | ⟨hr, hno⟩
  · exact Or.inl ⟨i, hr, by omega, h3⟩
  · exact Or.inr ⟨hr, fun i hi => hno i (by omega) (by omega)⟩

theorem MonoTable_of_sorted_le {bm : List ℚ} (h : bm.Sorted (· ≤ ·)) : MonoTable bm := by
  intro i j hij hj
  have := h.rel_get_of_le (a := ⟨i, by omega⟩) (b := ⟨j, hj⟩) hij
  simpa [upper_bound, List.getD_eq_getElem, hj, (by omega : i < bm.length)] using this

theorem strict_of_sorted_lt {bm : List ℚ} (h : bm.Sorted (· < ·)) (i j : Nat) (hij : i < j)
    (hj : j < bm.length) : upper_bound bm i < upper_bound bm j := by
  have := h.rel_get_of_lt (a := ⟨i, by omega⟩) (b := ⟨j, hj⟩) hij
  simpa [upper_bound, List.getD_eq_getElem, hj, (by omega : i < bm.length)] using this

theorem MonoTable_of_sorted_lt {bm : List ℚ} (h : bm.Sorted (· < ·)) : MonoTable bm := by
  intro i j hij hj
  rcases Nat.eq_or_lt_of_le hij with rfl | hlt
  · exact le_refl _
  · exact le_of_lt (strict_of_sorted_lt h i j hlt hj)

/-- On a weakly increasing table at most one bin holds `x`. -/
theorem in_bin_unique {bm : List ℚ} {mn x : ℚ} (hmono : MonoTable bm) {i j : Nat}
    (hj : j < bm.length) (hi : i < bm.length)
    (h1 : in_bin bm mn x i) (h2 : in_bin bm mn x j) : i = j := by
  by_contra hne
  rcases Nat.lt_or_gt_of_ne hne with hlt | hlt
  · have hj0 : j ≠ 0 := by omega
    have hle := h2.1
    simp only [lower_bound, if_neg hj0] at hle
    have hm := hmono i (j - 1) (by omega) (by omega)
    unfold upper_bound at hm
    have := h1.2
    unfold upper_bound at this
    exact absurd (lt_of_lt_of_le this (le_trans hm hle)) (lt_irrefl _)
  · have hi0 : i ≠ 0 := by omega
    have hle := h1.1
    simp only [lower_bound, if_neg hi0] at hle
    have hm := hmono j (i - 1) (by omega) (by omega)
    unfold upper_bound at hm
    have := h2.2
    unfold upper_bound at this
    exact absurd (lt_of_lt_of_le this (le_trans hm hle)) (lt_irrefl _)

/-- Every `x` in `[min_meas, bin_maxes[bin_count-1])` lies in some bin. -/
theorem exists_in_bin (bm : List ℚ) {mn x : ℚ} (n : Nat) (hn : 1 ≤ n) (hlo : mn ≤ x)
    (hhi : x < upper_bound bm (n - 1)) : ∃ i : Nat, i < n ∧ in_bin bm mn x i := by
  have hex : ∃ i : Nat, i < n ∧ x < upper_bound bm i := ⟨n - 1, by omega, hhi⟩
  classical
  let i := Nat.find hex
  have hi : i < n ∧ x < upper_bound bm i := Nat.find_spec hex
  refine ⟨i, hi.1, ?_, hi.2⟩
  by_cases h0 : i = 0
  · simp [lower_bound, h0, hlo]
  · have hmin := Nat.find_min hex (m := i - 1) (by omega)
    simp only [lower_bound, if_neg h0]
    by_contra hc
    exact hmin ⟨by omega, by simpa [upper_bound] using not_le.mp hc⟩

theorem find_range_unique (p : Nat → Bool) (n i : Nat) (hi : i < n) (hp : p i = true)
    (huniq : ∀ j, j < n → p j = true → j = i) : (List.range n).find? p = some i := by
  have key : ∀ l : List Nat, i ∈ l → (∀ j ∈ l, p j = true → j = i) → l.find? p = some i := by
    intro l
    induction l with
    | nil => intro h; simp at h
    | cons a t ih =>
      intro hmem hu
      by_cases hpa : p a = true
      · have := hu a (List.mem_cons_self a t) hpa
        subst this
        simp [List.find?, hpa]
      · have hne : a ≠ i := fun h => hpa (h ▸ hp)
        have hit : i ∈ t := by
          rcases List.mem_cons.mp hmem with h | h
          · exact absurd h.symm hne
          · exact h
        simp only [List.find?, Bool.not_eq_true] at hpa ⊢
        rw [hpa]
        exact ih hit (fun j hj => hu j (List.mem_cons_of_mem a hj))
  exact key _ (List.mem_range.mpr hi) (fun j hj => huniq j (List.mem_range.mp hj))

/-- C2: on a strictly increasing table of `bin_count >= 1` thresholds with
`min_meas < bin_maxes[0]`, for every `x` with
`min_meas <= x < bin_maxes[bin_count-1]`, `Which_bin` returns an index `i` of
the table with `lower_bound[i] <= x < bin_maxes[i]`, and it is the index the
left-to-right scan finds. -/
theorem Which_bin_eq_linear_scan (x : ℚ) (bin_maxes : List ℚ) (bin_count : Nat) (min_meas : ℚ)
    (hcount : 1 ≤ bin_count) (hlen : bin_maxes.length = bin_count)
    (hsorted : bin_maxes.Sorted (· < ·))
    (_hmin : min_meas < upper_bound bin_maxes 0)
    (hlo : min_meas ≤ x) (hhi : x < upper_bound bin_maxes (bin_count - 1)) :
    ∃ i : Nat, Which_bin x bin_maxes bin_count min_meas = .ok (i : Int) ∧ i < bin_count ∧
      lower_bound bin_maxes min_meas i ≤ x ∧ x < upper_bound bin_maxes i ∧
      linear_scan x bin_maxes bin_count min_meas = some i := by
  have hmono := MonoTable_of_sorted_lt hsorted
  obtain ⟨a, ha, hina⟩ := exists_in_bin bin_maxes bin_count hcount hlo hhi
  rcases Which_bin_spec x bin_maxes bin_count min_meas hlen hmono with
    ⟨i, hr, hi, hin⟩ | ⟨_, hno⟩
  · refine ⟨i, hr, hi, hin.1, hin.2, ?_⟩
    unfold linear_scan
    apply find_range_unique _ _ _ hi (by simpa using hin)
    intro j hj hpj
    exact in_bin_unique hmono (by omega) (by omega) (by simpa using hpj) hin
  · exact absurd hina (hno a ha)

/-- C3: on a weakly increasing table of `bin_count >= 1` thresholds with
`min_meas <= bin_maxes[0]`, `Which_bin` takes the fatal exit branch if and only
if `x < min_meas` or `x >= bin_maxes[bin_count-1]`; for every `x` in
`[min_meas, bin_maxes[bin_count-1])` it returns an index of the table. -/
theorem Which_bin_fatal_iff (x : ℚ) (bin_maxes : List ℚ) (bin_count : Nat) (min_meas : ℚ)
    (hcount : 1 ≤ bin_count) (hlen : bin_maxes.length = bin_count)
    (hsorted : bin_maxes.Sorted (· ≤ ·))
    (hmin : min_meas ≤ upper_bound bin_maxes 0) :
    (Which_bin x bin_maxes bin_count min_meas = .error .exit_failure ↔
      (x < min_meas ∨ x ≥ upper_bound bin_maxes (bin_count - 1))) ∧
    (min_meas ≤ x ∧ x < upper_bound bin_maxes (bin_count - 1) →
      ∃ i : Nat, i < bin_count ∧ Which_bin x bin_maxes bin_count min_meas = .ok (i : Int)) := by
  have hmono := MonoTable_of_sorted_le hsorted
  have hfound : min_meas ≤ x ∧ x < upper_bound bin_maxes (bin_count - 1) →
      ∃ i : Nat, i < bin_count ∧ Which_bin x bin_maxes bin_count min_meas = .ok (i : Int) := by
    rintro ⟨hlo, hhi⟩
    obtain ⟨a, ha, hina⟩ := exists_in_bin bin_maxes bin_count hcount hlo hhi
    rcases Which_bin_spec x bin_maxes bin_count min_meas hlen hmono with
      ⟨i, hr, hi, _⟩ | ⟨_, hno⟩
    · exact ⟨i, hi, hr⟩
    · exact absurd hina (hno a ha)
  refine ⟨⟨?_, ?_⟩, hfound⟩
  · intro hfail
    by_contra hc
    push_neg at hc
    obtain ⟨i, _, hr⟩ := hfound ⟨hc.1, hc.2⟩
    rw [hr] at hfail
    cases hfail
  · intro hout
    rcases Which_bin_spec x bin_maxes bin_count min_meas hlen hmono with
      ⟨i, _, hi, hin⟩ | ⟨hr, _⟩
    · exfalso
      rcases hout with hl | hu
      · have hle := hin.1
        by_cases h0 : i = 0
        · simp only [lower_bound, if_pos h0] at hle
          exact absurd (lt_of_lt_of_le hl hle) (lt_irrefl _)
        · simp only [lower_bound, if_neg h0] at hle
          have hm := hmono 0 (i - 1) (by omega) (by omega)
          unfold upper_bound at hm hmin
          exact absurd (lt_of_lt_of_le hl (le_trans hmin (le_trans hm hle))) (lt_irrefl _)
      · have hm := hmono i (bin_count - 1) (by omega) (by omega)
        exact absurd (lt_of_lt_of_le hin.2 (le_trans hm hu)) (lt_irrefl _)
    · exact hr

/-- C4: on a strictly increasing table, a measurement equal to the threshold
`bin_maxes[i]` of a bin `i < bin_count - 1` is classified into bin `i + 1`, not
into bin `i`. -/
theorem Which_bin_boundary (bin_maxes : List ℚ) (bin_count : Nat) (min_meas : ℚ) (i : Nat)
    (hlen : bin_maxes.length = bin_count) (hsorted : bin_maxes.Sorted (· < ·))
    (hi : i + 1 < bin_count) :
    Which_bin (upper_bound bin_maxes i) bin_maxes bin_count min_meas = .ok ((i + 1 : Nat) : Int) ∧
    Which_bin (upper_bound bin_maxes i) bin_maxes bin_count min_meas ≠ .ok (i : Int) := by
  have hmono := MonoTable_of_sorted_lt hsorted
  have hin : in_bin bin_maxes min_meas (upper_bound bin_maxes i) (i + 1) := by
    refine ⟨?_, strict_of_sorted_lt hsorted i (i + 1) (by omega) (by omega)⟩
    simp [lower_bound, upper_bound]
  have hres : Which_bin (upper_bound bin_maxes i) bin_maxes bin_count min_meas =
      .ok ((i + 1 : Nat) : Int) := by
    rcases Which_bin_spec (upper_bound bin_maxes i) bin_maxes bin_count min_meas hlen hmono with
      ⟨j, hr, hj, hinj⟩ | ⟨_, hno⟩
    · have := in_bin_unique hmono (by omega) (by omega) hinj hin
      rw [hr, this]
    · exact absurd hin (hno (i + 1) hi)
  refine ⟨hres, ?_⟩
  rw [hres]
  intro h
  injection h with h
  omega

/-! ## Partition of the data (lines 347-360) -/

theorem num_elements_last (n t : Nat) (ht : 1 ≤ t) :
    num_elements n t (t - 1) = n / t + n % t := by
  unfold num_elements
  rw [if_pos (by omega)]

theorem num_elements_inner (n t id : Nat) (h : id + 1 < t) :
    num_elements n t id = n / t := by
  unfold num_elements
  rw [if_neg (by omega)]

theorem stop_n_last (n t : Nat) (ht : 1 ≤ t) : stop_n n t (t - 1) = n := by
  unfold stop_n start_n
  rw [num_elements_last n t ht]
  have h1 : n / t * (t - 1) + n / t = n / t * t := by
    have : n / t * t = n / t * ((t - 1) + 1) := by rw [Nat.sub_add_cancel ht]
    rw [this, Nat.mul_add, Nat.mul_one]
  have h2 := Nat.div_add_mod n t
  rw [Nat.mul_comm] at h2
  omega

theorem stop_n_inner (n t id : Nat) (h : id + 1 < t) :
    stop_n n t id = start_n n t (id + 1) := by
  unfold stop_n start_n
  rw [num_elements_inner n t id h, Nat.mul_add, Nat.mul_one]

theorem start_n_mono (n t : Nat) {i j : Nat} (h : i ≤ j) : start_n n t i ≤ start_n n t j :=
  Nat.mul_le_mul_left _ h

theorem start_le_stop (n t id : Nat) : start_n n t id ≤ stop_n n t id := by
  unfold stop_n; omega

theorem slice_disjoint (n t : Nat) {i j k : Nat} (hj : j < t) (hij : i < j)
    (hk1 : k < stop_n n t i) (hk2 : start_n n t j ≤ k) : False := by
  have h1 := stop_n_inner n t i (by omega)
  have h2 := start_n_mono n t (i := i + 1) (j := j) (by omega)
  omega

theorem slice_cover (n t : Nat) (ht : 1 ≤ t) (k : Nat) (hk : k < n) :
    ∃ id, id < t ∧ start_n n t id ≤ k ∧ k < stop_n n t id := by
  by_cases hq : k / (n / t) < t - 1 ∧ 0 < n / t
  · obtain ⟨hq, hb⟩ := hq
    refine ⟨k / (n / t), by omega, ?_, ?_⟩
    · unfold start_n
      exact Nat.mul_div_le k (n / t)
    · rw [stop_n_inner n t _ (by omega)]
      unfold start_n
      exact Nat.lt_mul_div_succ k hb
  · refine ⟨t - 1, by omega, ?_, by rw [stop_n_last n t ht]; exact hk⟩
    unfold start_n
    by_cases hb : 0 < n / t
    · have hq2 : t - 1 ≤ k / (n / t) := by
        by_contra hc
        exact hq ⟨by omega, hb⟩
      calc n / t * (t - 1) ≤ n / t * (k / (n / t)) := Nat.mul_le_mul_left _ hq2
        _ ≤ k := Nat.mul_div_le k (n / t)
    · have : n / t = 0 := Nat.eq_zero_of_not_pos hb
      simp [this]

/-- C5: the slices `[start_n, stop_n)` of the workers `0..thread_count-1` are
contiguous (slice 0 starts at 0, each slice ends where the next starts, the last
ends at `data_count`) and pairwise disjoint, and every index of
`[0, data_count)` lies in exactly one of them. -/
theorem slices_partition (data_count thread_count : Nat) (_hd : 1 ≤ data_count)
    (ht : 1 ≤ thread_count) :
    start_n data_count thread_count 0 = 0 ∧
    (∀ id, id + 1 < thread_count →
      stop_n data_count thread_count id = start_n data_count thread_count (id + 1)) ∧
    stop_n data_count thread_count (thread_count - 1) = data_count ∧
    (∀ id1 id2 k, id1 < thread_count → id2 < thread_count →
      start_n data_count thread_count id1 ≤ k → k < stop_n data_count thread_count id1 →
      start_n data_count thread_count id2 ≤ k → k < stop_n data_count thread_count id2 →
      id1 = id2) ∧
    (∀ k, k < data_count → ∃! id, id < thread_count ∧
      start_n data_count thread_count id ≤ k ∧ k < stop_n data_count thread_count id) := by
  have hdisj : ∀ id1 id2 k, id1 < thread_count → id2 < thread_count →
      start_n data_count thread_count id1 ≤ k → k < stop_n data_count thread_count id1 →
      start_n data_count thread_count id2 ≤ k → k < stop_n data_count thread_count id2 →
      id1 = id2 := by
    intro id1 id2 k h1 h2 a1 b1 a2 b2
    by_contra hne
    rcases Nat.lt_or_gt_of_ne hne with h | h
    · exact slice_disjoint data_count thread_count h2 h b1 a2
    · exact slice_disjoint data_count thread_count h1 h b2 a1
  refine ⟨by simp [start_n], fun id h => stop_n_inner _ _ id h,
    stop_n_last _ _ ht, hdisj, ?_⟩
  intro k hk
  obtain ⟨id, h1, h2, h3⟩ := slice_cover data_count thread_count ht k hk
  exact ⟨id, ⟨h1, h2, h3⟩, fun j ⟨j1, j2, j3⟩ => hdisj j id k j1 h1 j2 j3 h2 h3⟩

theorem slices_partition_witness :
    start_n 8 3 0 = 0 ∧
    (∀ id, id + 1 < 3 → stop_n 8 3 id = start_n 8 3 (id + 1)) ∧
    stop_n 8 3 (3 - 1) = 8 ∧
    (∀ id1 id2 k, id1 < 3 → id2 < 3 →
      start_n 8 3 id1 ≤ k → k < stop_n 8 3 id1 →
      start_n 8 3 id2 ≤ k → k < stop_n 8 3 id2 → id1 = id2) ∧
    (∀ k, k < 8 → ∃! id, id < 3 ∧ start_n 8 3 id ≤ k ∧ k < stop_n 8 3 id) :=
  slices_partition 8 3 (by decide) (by decide)

/-! ## Which_bin on the four-bin table over [0, 1) -/

theorem Which_bin_eq_linear_scan_witness :
    ∃ i : Nat, Which_bin (3/10) [1/4, 1/2, 3/4, 1] 4 0 = .ok (i : Int) ∧ i < 4 ∧
      lower_bound [1/4, 1/2, 3/4, 1] 0 i ≤ 3/10 ∧ 3/10 < upper_bound [1/4, 1/2, 3/4, 1] i ∧
      linear_scan (3/10) [1/4, 1/2, 3/4, 1] 4 0 = some i :=
  Which_bin_eq_linear_scan (3/10) [1/4, 1/2, 3/4, 1] 4 0 (by decide) rfl
    (by simp [List.Sorted]; norm_num) (by norm_num [upper_bound]) (by norm_num)
    (by norm_num [upper_bound])

theorem Which_bin_fatal_iff_witness :
    (Which_bin 1 [1/4, 1/2, 3/4, 1] 4 0 = .error .exit_failure ↔
      ((1 : ℚ) < 0 ∨ (1 : ℚ) ≥ upper_bound [1/4, 1/2, 3/4, 1] (4 - 1))) ∧
    ((0 : ℚ) ≤ 1 ∧ (1 : ℚ) < upper_bound [1/4, 1/2, 3/4, 1] (4 - 1) →
      ∃ i : Nat, i < 4 ∧ Which_bin 1 [1/4, 1/2, 3/4, 1] 4 0 = .ok (i : Int)) :=
  Which_bin_fatal_iff 1 [1/4, 1/2, 3/4, 1] 4 0 (by decide) rfl
    (by simp [List.Sorted]; norm_num) (by norm_num [upper_bound])

theorem Which_bin_boundary_witness :
    Which_bin (1/4) [1/4, 1/2, 3/4, 1] 4 0 = .ok 1 ∧
    Which_bin (1/4) [1/4, 1/2, 3/4, 1] 4 0 ≠ .ok 0 := by
  have h := Which_bin_boundary [1/4, 1/2, 3/4, 1] 4 0 0 rfl
    (by simp [List.Sorted]; norm_num) (by decide)
  simpa [upper_bound] using h

/-! ## Ownership of bins in the consolidation phase (lines 387-431) -/

/-- The striped loop started at `m0` visits exactly once each `m` of
`[m0, bin_count)` with `m - m0` a multiple of `thread_count`, and nothing else. -/
theorem stripe_bins_count (bc t : Nat) (ht : 1 ≤ t) :
    ∀ (fuel m0 : Nat), bc - m0 < fuel →
      ∃ ms, stripe_bins bc t fuel m0 = .ok ms ∧
        ∀ m, ms.count m = if m0 ≤ m ∧ m < bc ∧ t ∣ (m - m0) then 1 else 0 := by
  intro fuel
  induction fuel with
  | zero => intro m0 h; omega
  | succ fuel ih =>
    intro m0 hfuel
    by_cases hlt : m0 < bc
    · obtain ⟨ms, hms, hcount⟩ := ih (m0 + t) (by omega)
      refine ⟨m0 :: ms, ?_, ?_⟩
      · rw [stripe_bins, if_pos hlt, hms]
      · intro m
        rw [List.count_cons, hcount m]
        by_cases hmm : m0 = m
        · subst hmm
          have h1 : ¬ (m0 + t ≤ m0 ∧ m0 < bc ∧ t ∣ (m0 - (m0 + t))) := by omega
          rw [if_neg h1]
          simp [hlt]
        · have hbeq : (m0 == m) = false := by simpa using hmm
          simp only [hbeq, Bool.false_eq_true, if_false, Nat.add_zero]
          have hiff : (m0 + t ≤ m ∧ m < bc ∧ t ∣ (m - (m0 + t))) ↔
              (m0 ≤ m ∧ m < bc ∧ t ∣ (m - m0)) := by
            constructor
            · rintro ⟨h1, h2, h3⟩
              refine ⟨by omega, h2, ?_⟩
              have : m - m0 = (m - (m0 + t)) + t := by omega
              rw [this]
              exact Dvd.dvd.add h3 (dvd_refl t)
            · rintro ⟨h1, h2, h3⟩
              have hpos : 0 < m - m0 := by omega
              have hle := Nat.le_of_dvd hpos h3
              refine ⟨by omega, h2, ?_⟩
              have : m - (m0 + t) = (m - m0) - t := by omega
              rw [this]
              exact Nat.dvd_sub' h3 (dvd_refl t)
          by_cases hc : m0 ≤ m ∧ m < bc ∧ t ∣ (m - m0)
          · rw [if_pos hc, if_pos (hiff.mpr hc)]
          · rw [if_neg hc, if_neg (fun h => hc (hiff.mp h))]
    · refine ⟨[], ?_, ?_⟩
      · rw [stripe_bins, if_neg hlt]
      · intro m
        have : ¬ (m0 ≤ m ∧ m < bc ∧ t ∣ (m - m0)) := by omega
        rw [if_neg this]
        simp

theorem stripe_cond_iff (t id m : Nat) (hid : id < t) :
    (id ≤ m ∧ t ∣ (m - id)) ↔ id = m % t := by
  constructor
  · rintro ⟨h1, q, hq⟩
    have hm : m = id + t * q := by omega
    rw [hm, Nat.add_mul_mod_self_left, Nat.mod_eq_of_lt hid]
  · intro h
    have hdm := Nat.div_add_mod m t
    refine ⟨by rw [h]; exact Nat.mod_le m t, m / t, ?_⟩
    rw [h]
    omega

/-- The bins worker `id` writes: each bin `m` with `m mod thread_count = id`
once, and no other bin. -/
theorem owned_bins_count (bin_count thread_count id : Nat) (ht : 1 ≤ thread_count)
    (hid : id < thread_count) :
    ∃ ms, owned_bins bin_count thread_count id = .ok ms ∧
      ∀ m, ms.count m = if m < bin_count ∧ id = m % thread_count then 1 else 0 := by
  unfold owned_bins
  by_cases hgt : bin_count > thread_count
  · rw [if_pos hgt]
    obtain ⟨ms, hms, hcount⟩ :=
      stripe_bins_count bin_count thread_count ht (bin_count + 1) id (by omega)
    refine ⟨ms, hms, fun m => ?_⟩
    rw [hcount m]
    have := stripe_cond_iff thread_count id m hid
    by_cases hc : m < bin_count ∧ id = m % thread_count
    · rw [if_pos hc, if_pos ⟨(this.mpr hc.2).1, hc.1, (this.mpr hc.2).2⟩]
    · rw [if_neg hc, if_neg (fun h => hc ⟨h.2.1, this.mp ⟨h.1, h.2.2⟩⟩)]
  · rw [if_neg hgt]
    by_cases hlt : id < bin_count
    · rw [if_pos hlt]
      refine ⟨[id], rfl, fun m => ?_⟩
      by_cases hc : m < bin_count ∧ id = m % thread_count
      · have : m % thread_count = m := Nat.mod_eq_of_lt (by omega)
        have hidm : id = m := by omega
        rw [if_pos hc, hidm]
        simp
      · rw [if_neg hc]
        have hne : id ≠ m := by
          intro h
          subst h
          exact hc ⟨hlt, (Nat.mod_eq_of_lt hid).symm⟩
        simp [List.count_cons, hne]
    · rw [if_neg hlt]
      refine ⟨[], rfl, fun m => ?_⟩
      have : ¬ (m < bin_count ∧ id = m % thread_count) := by
        rintro ⟨h1, h2⟩
        have : m % thread_count = m := Nat.mod_eq_of_lt (by omega)
        omega
      rw [if_neg this]
      simp

/-- C6: for `bin_count >= 1` and `thread_count >= 1` (whichever is larger),
every bin `m` of `[0, bin_count)` has one worker `id` in `[0, thread_count)`
that executes `bin_counts[m] = sum` exactly once, and no other worker executes
it at all. -/
theorem bin_ownership_partition (bin_count thread_count : Nat) (_hb : 1 ≤ bin_count)
    (ht : 1 ≤ thread_count) (m : Nat) (hm : m < bin_count) :
    ∃ id, id < thread_count ∧
      ∀ id2, id2 < thread_count →
        ∃ ms, owned_bins bin_count thread_count id2 = .ok ms ∧
          ms.count m = if id2 = id then 1 else 0 := by
  refine ⟨m % thread_count, Nat.mod_lt m (by omega), ?_⟩
  intro id2 hid2
  obtain ⟨ms, hms, hcount⟩ := owned_bins_count bin_count thread_count id2 ht hid2
  refine ⟨ms, hms, ?_⟩
  rw [hcount m]
  by_cases hc : id2 = m % thread_count
  · rw [if_pos ⟨hm, hc⟩, if_pos hc]
  · rw [if_neg (fun h => hc h.2), if_neg hc]

theorem bin_ownership_partition_witness :
    ∃ id, id < 3 ∧
      ∀ id2, id2 < 3 →
        ∃ ms, owned_bins 7 3 id2 = .ok ms ∧ ms.count 4 = if id2 = id then 1 else 0 :=
  bin_ownership_partition 7 3 (by decide) (by decide) 4 (by decide)

/-! ## Consolidation (lines 387-431) -/

theorem rd_getD {α : Type} {a : List α} {i : Nat} (d : α) (h : i < a.length) :
    rd a i = .ok (a.getD i d) := by
  simp [rd, List.getD, List.getElem?_eq_getElem h]

theorem ok_bind {α β : Type} (a : α) (f : α → Except Fault β) :
    (Except.ok a >>= f) = f a := rfl

theorem error_bind {α β : Type} (e : Fault) (f : α → Except Fault β) :
    (Except.error e >>= f) = Except.error e := rfl

/-- The summing loop adds the entries `local_bins[m + k*bin_count]` of the
iterations it runs to the accumulator. -/
theorem column_sum_loop (lb : List Int) (bc m : Nat) :
    ∀ (n i : Nat) (acc : Int), m + (i + n - 1) * bc < lb.length ∨ n = 0 →
      for_up (column_sum_body lb bc m) n i acc =
        .ok (acc + ((List.range' i n).map (fun k => lb.getD (k * bc + m) 0)).sum) := by
  intro n
  induction n with
  | zero => intro i acc _; simp [for_up]
  | succ n ih =>
    intro i acc h
    have hlen : m + (i + (n + 1) - 1) * bc < lb.length := by
      rcases h with h | h
      · exact h
      · omega
    have h1 : m + i * bc < lb.length := by
      have : i * bc ≤ (i + (n + 1) - 1) * bc := Nat.mul_le_mul_right _ (by omega)
      omega
    have hbody : column_sum_body lb bc m i acc = .ok (acc + lb.getD (i * bc + m) 0) := by
      unfold column_sum_body
      rw [rd_getD 0 h1, ok_bind, Nat.add_comm m]
      rfl
    rw [for_up, hbody]
    simp only
    rw [ih (i + 1) _ (by
      by_cases hn : n = 0
      · exact Or.inr hn
      · left
        have : i + 1 + n - 1 = i + (n + 1) - 1 := by omega
        rw [this]; exact hlen)]
    simp [List.range', add_assoc]

theorem column_sum_total (lb : List Int) (bc t m : Nat) (hm : m < bc)
    (hlen : lb.length = bc * t) :
    for_up (column_sum_body lb bc m) t 0 0 = .ok (column_total lb bc t m) := by
  rw [column_sum_loop lb bc m t 0 0]
  · simp [column_total, List.range_eq_range']
  · by_cases ht : t = 0
    · exact Or.inr ht
    · left
      have h1 : (0 + t - 1) * bc + bc = t * bc := by
        have : 0 + t - 1 + 1 = t := by omega
        calc (0 + t - 1) * bc + bc = (0 + t - 1 + 1) * bc := by ring
          _ = t * bc := by rw [this]
      rw [hlen, Nat.mul_comm bc t]
      omega


theorem only_bin_counts_changed_trans {g g1 g2 : Globals}
    (h1 : only_bin_counts_changed g g1) (h2 : only_bin_counts_changed g1 g2) :
    only_bin_counts_changed g g2 := by
  unfold only_bin_counts_changed at *
  rw [h2, h1]

/-- One bin reduction stores the column sum in `bin_counts[m]` and changes
nothing else. -/
theorem reduce_bin_ok (m : Nat) (g : Globals) (hm : m < g.bin_count)
    (hlocal : g.local_bins.length = g.bin_count * g.thread_count)
    (hcounts : g.bin_counts.length = g.bin_count) :
    reduce_bin m g = .ok
      { g with bin_counts :=
          g.bin_counts.set m (column_total g.local_bins g.bin_count g.thread_count m) } := by
  unfold reduce_bin
  rw [column_sum_total g.local_bins g.bin_count g.thread_count m hm hlocal, ok_bind]
  unfold wr
  rw [if_pos (by omega), ok_bind]
  rfl

/-- Reducing a list of bins: every listed bin holds its column sum, every other
entry of `bin_counts` keeps its value, nothing else changes. -/
theorem run_reduce_bins (ms : List Nat) :
    ∀ (g : Globals), (∀ m ∈ ms, m < g.bin_count) →
      g.local_bins.length = g.bin_count * g.thread_count →
      g.bin_counts.length = g.bin_count →
      ∃ g2, run_list reduce_bin ms g = .ok g2 ∧ only_bin_counts_changed g g2 ∧
        g2.bin_counts.length = g.bin_count ∧
        ∀ m, g2.bin_counts[m]? =
          if m ∈ ms then some (column_total g.local_bins g.bin_count g.thread_count m)
          else g.bin_counts[m]? := by
  induction ms with
  | nil =>
    intro g _ _ hc
    exact ⟨g, rfl, rfl, hc, fun m => by simp⟩
  | cons a ms ih =>
    intro g hms hlocal hcounts
    have ha : a < g.bin_count := hms a (List.mem_cons_self a ms)
    let v := column_total g.local_bins g.bin_count g.thread_count a
    let g1 : Globals := { g with bin_counts := g.bin_counts.set a v }
    obtain ⟨g2, hrun, hframe, hlen, hval⟩ := ih g1
      (fun m hm => hms m (List.mem_cons_of_mem a hm)) hlocal
      (by show (g.bin_counts.set a v).length = g.bin_count; simpa using hcounts)
    refine ⟨g2, ?_, ?_, hlen, ?_⟩
    · rw [run_list, reduce_bin_ok a g ha hlocal hcounts]
      exact hrun
    · have h1 : only_bin_counts_changed g g1 := by
        unfold only_bin_counts_changed; rfl
      exact only_bin_counts_changed_trans h1 hframe
    · intro m
      rw [hval m]
      by_cases hmem : m ∈ ms
      · rw [if_pos hmem, if_pos (List.mem_cons_of_mem a hmem)]
      · rw [if_neg hmem]
        by_cases hma : m = a
        · subst hma
          rw [if_pos (List.mem_cons_self m ms)]
          simp only [List.getElem?_set, if_true]
          rw [if_pos (by omega)]
        · rw [if_neg (by simp [hma, hmem])]
          simp only [List.getElem?_set]
          rw [if_neg (fun h => hma h.symm)]

/-- Consolidation phase of one worker: the bins `m` with
`m mod thread_count = id` hold their column sum, the other entries of
`bin_counts` and everything else are unchanged. -/
theorem consolidation_phase_ok (id : Nat) (g : Globals) (ht : 1 ≤ g.thread_count)
    (hid : id < g.thread_count)
    (hlocal : g.local_bins.length = g.bin_count * g.thread_count)
    (hcounts : g.bin_counts.length = g.bin_count) :
    ∃ g2, consolidation_phase id g = .ok g2 ∧ only_bin_counts_changed g g2 ∧
      g2.bin_counts.length = g.bin_count ∧
      ∀ m, g2.bin_counts[m]? =
        if m < g.bin_count ∧ id = m % g.thread_count then
          some (column_total g.local_bins g.bin_count g.thread_count m)
        else g.bin_counts[m]? := by
  obtain ⟨ms, hms, hcount⟩ := owned_bins_count g.bin_count g.thread_count id ht hid
  have hmem : ∀ m, m ∈ ms ↔ (m < g.bin_count ∧ id = m % g.thread_count) := by
    intro m
    rw [← List.count_pos_iff, hcount m]
    by_cases hc : m < g.bin_count ∧ id = m % g.thread_count
    · simp [hc]
    · simp [hc]
  obtain ⟨g2, hrun, hframe, hlen, hval⟩ :=
    run_reduce_bins ms g (fun m hm => ((hmem m).mp hm).1) hlocal hcounts
  refine ⟨g2, ?_, hframe, hlen, ?_⟩
  · unfold consolidation_phase
    rw [hms, ok_bind]
    exact hrun
  · intro m
    rw [hval m]
    by_cases hc : m < g.bin_count ∧ id = m % g.thread_count
    · rw [if_pos hc, if_pos ((hmem m).mpr hc)]
    · rw [if_neg hc, if_neg (fun h => hc ((hmem m).mp h))]

/-- Consolidation phases of a list of workers, in any order. -/
theorem run_consolidation_phases (ids : List Nat) :
    ∀ (g : Globals), 1 ≤ g.thread_count → (∀ id ∈ ids, id < g.thread_count) →
      g.local_bins.length = g.bin_count * g.thread_count →
      g.bin_counts.length = g.bin_count →
      ∃ g2, run_list consolidation_phase ids g = .ok g2 ∧ only_bin_counts_changed g g2 ∧
        g2.bin_counts.length = g.bin_count ∧
        ∀ m, g2.bin_counts[m]? =
          if m < g.bin_count ∧ m % g.thread_count ∈ ids then
            some (column_total g.local_bins g.bin_count g.thread_count m)
          else g.bin_counts[m]? := by
  induction ids with
  | nil =>
    intro g _ _ _ hc
    exact ⟨g, rfl, rfl, hc, fun m => by simp⟩
  | cons a ids ih =>
    intro g ht hids hlocal hcounts
    obtain ⟨g1, hrun1, hframe1, hlen1, hval1⟩ :=
      consolidation_phase_ok a g ht (hids a (List.mem_cons_self a ids)) hlocal hcounts
    have hg1 : g1.local_bins = g.local_bins ∧ g1.bin_count = g.bin_count ∧
        g1.thread_count = g.thread_count := by
      unfold only_bin_counts_changed at hframe1
      rw [hframe1]
      exact ⟨rfl, rfl, rfl⟩
    obtain ⟨h1, h2, h3⟩ := hg1
    obtain ⟨g2, hrun2, hframe2, hlen2, hval2⟩ := ih g1 (by omega)
      (fun id hid => by rw [h3]; exact hids id (List.mem_cons_of_mem a hid))
      (by rw [h1, h2, h3]; exact hlocal) (by rw [h2]; exact hlen1)
    refine ⟨g2, ?_, only_bin_counts_changed_trans hframe1 hframe2, by rw [hlen2, h2], ?_⟩
    · rw [run_list, hrun1]
      exact hrun2
    · intro m
      rw [hval2 m, h1, h2, h3, hval1 m]
      by_cases hm : m < g.bin_count
      · by_cases hin : m % g.thread_count ∈ ids
        · rw [if_pos ⟨hm, hin⟩, if_pos ⟨hm, List.mem_cons_of_mem a hin⟩]
        · rw [if_neg (fun h => hin h.2)]
          by_cases ha : a = m % g.thread_count
          · rw [if_pos ⟨hm, ha⟩, if_pos ⟨hm, by rw [← ha]; exact List.mem_cons_self a ids⟩]
          · rw [if_neg (fun h => ha h.2)]
            rw [if_neg]
            rintro ⟨_, h⟩
            rcases List.mem_cons.mp h with h | h
            · exact ha h.symm
            · exact hin h
      · rw [if_neg (fun h => hm h.1), if_neg (fun h => hm h.1), if_neg (fun h => hm h.1)]

/-- C7: for `bin_count >= 1`, `thread_count >= 1` and any content of the
worker-local matrix and of `bin_counts`, after the consolidation phases of all
workers (in any order) `bin_counts[m]` is the sum over `k` in
`[0, thread_count)` of `local_bins[k*bin_count + m]` for every bin `m`, and the
worker-local matrix (as every global other than `bin_counts`) is unchanged. -/
theorem consolidation_column_sum (g : Globals) (ids : List Nat)
    (_hb : 1 ≤ g.bin_count) (ht : 1 ≤ g.thread_count)
    (hlocal : g.local_bins.length = g.bin_count * g.thread_count)
    (hcounts : g.bin_counts.length = g.bin_count)
    (hids : ids.Perm (List.range g.thread_count)) :
    ∃ g2, run_list consolidation_phase ids g = .ok g2 ∧
      g2.local_bins = g.local_bins ∧ only_bin_counts_changed g g2 ∧
      g2.bin_counts.length = g.bin_count ∧
      ∀ m, m < g.bin_count →
        g2.bin_counts[m]? = some (column_total g.local_bins g.bin_count g.thread_count m) := by
  obtain ⟨g2, hrun, hframe, hlen, hval⟩ := run_consolidation_phases ids g ht
    (fun id hid => List.mem_range.mp (hids.mem_iff.mp hid)) hlocal hcounts
  refine ⟨g2, hrun, ?_, hframe, hlen, ?_⟩
  · unfold only_bin_counts_changed at hframe
    rw [hframe]
  · intro m hm
    rw [hval m, if_pos ⟨hm, hids.mem_iff.mpr (List.mem_range.mpr (Nat.mod_lt m (by omega)))⟩]

theorem consolidation_column_sum_witness :
    ∃ g2, run_list consolidation_phase [1, 0] sample_globals = .ok g2 ∧
      g2.local_bins = sample_globals.local_bins ∧
      only_bin_counts_changed sample_globals g2 ∧
      g2.bin_counts.length = sample_globals.bin_count ∧
      ∀ m, m < sample_globals.bin_count →
        g2.bin_counts[m]? = some (column_total sample_globals.local_bins
          sample_globals.bin_count sample_globals.thread_count m) :=
  consolidation_column_sum sample_globals [1, 0] (by decide) (by decide) (by decide)
    (by decide) (by decide)

/-! ## Gen_bins (lines 233-255) -/

/-- The loop of `Gen_bins` over the indices `[i, i + n)`: inside that range
`bin_maxes[j] = min_meas + (j+1)*bin_width` and `bin_counts[j] = 0`, outside it
both arrays keep their content. -/
theorem Gen_bins_loop (mn w : ℚ) :
    ∀ (n i : Nat) (bm : List ℚ) (bc : List Int), i + n ≤ bm.length → i + n ≤ bc.length →
      ∃ bm2 bc2, for_up (Gen_bins_body mn w) n i (bm, bc) = .ok (bm2, bc2) ∧
        bm2.length = bm.length ∧ bc2.length = bc.length ∧
        (∀ j, bm2[j]? = if i ≤ j ∧ j < i + n then some (mn + ((j + 1 : Nat) : ℚ) * w)
          else bm[j]?) ∧
        (∀ j, bc2[j]? = if i ≤ j ∧ j < i + n then some 0 else bc[j]?) := by
  intro n
  induction n with
  | zero =>
    intro i bm bc _ _
    exact ⟨bm, bc, rfl, rfl, rfl, fun j => by rw [if_neg (by omega)],
      fun j => by rw [if_neg (by omega)]⟩
  | succ n ih =>
    intro i bm bc h1 h2
    have hbody : Gen_bins_body mn w i (bm, bc) =
        .ok (bm.set i (mn + ((i + 1 : Nat) : ℚ) * w), bc.set i 0) := by
      unfold Gen_bins_body wr
      simp only [if_pos (show i < bm.length by omega), if_pos (show i < bc.length by omega)]
    obtain ⟨bm2, bc2, hrun, hl1, hl2, hv1, hv2⟩ :=
      ih (i + 1) (bm.set i (mn + ((i + 1 : Nat) : ℚ) * w)) (bc.set i 0)
        (by rw [List.length_set]; omega) (by rw [List.length_set]; omega)
    refine ⟨bm2, bc2, ?_, by rw [hl1, List.length_set], by rw [hl2, List.length_set], ?_, ?_⟩
    · rw [for_up, hbody]
      exact hrun
    · intro j
      rw [hv1 j]
      by_cases hj : i + 1 ≤ j ∧ j < i + 1 + n
      · rw [if_pos hj, if_pos (by omega)]
      · rw [if_neg hj]
        by_cases hji : j = i
        · subst hji
          rw [if_pos (by omega), List.getElem?_set, if_pos rfl, if_pos (by omega)]
        · rw [if_neg (by omega), List.getElem?_set, if_neg (fun h => hji h.symm)]
    · intro j
      rw [hv2 j]
      by_cases hj : i + 1 ≤ j ∧ j < i + 1 + n
      · rw [if_pos hj, if_pos (by omega)]
      · rw [if_neg hj]
        by_cases hji : j = i
        · subst hji
          rw [if_pos (by omega), List.getElem?_set, if_pos rfl, if_pos (by omega)]
        · rw [if_neg (by omega), List.getElem?_set, if_neg (fun h => hji h.symm)]

theorem getD_of_getElem? {l : List ℚ} {i : Nat} {v : ℚ} (h : l[i]? = some v) :
    l.getD i 0 = v := by
  simp [List.getD, h]

/-- C9: over exact arithmetic, for `min < max` and `bin_count >= 1`, `Gen_bins`
sets `bin_maxes[i] = min + (i+1)*(max - min)/bin_count` for every `i` in
`[0, bin_count)`; the thresholds are strictly increasing with
`min < bin_maxes[0]`, the last one equals `max`, and every `bin_counts[i]` is 0. -/
theorem Gen_bins_table (min_meas max_meas : ℚ) (bin_count : Nat)
    (m_bin_maxes : List ℚ) (m_bin_counts : List Int)
    (hlt : min_meas < max_meas) (hb : 1 ≤ bin_count)
    (h1 : m_bin_maxes.length = bin_count) (h2 : m_bin_counts.length = bin_count) :
    ∃ bm bc, Gen_bins min_meas max_meas m_bin_maxes m_bin_counts bin_count = .ok (bm, bc) ∧
      bm.length = bin_count ∧ bc.length = bin_count ∧
      (∀ i, i < bin_count →
        bm[i]? = some (min_meas + ((i : ℚ) + 1) * (max_meas - min_meas) / (bin_count : ℚ))) ∧
      bm.Sorted (· < ·) ∧
      min_meas < upper_bound bm 0 ∧
      upper_bound bm (bin_count - 1) = max_meas ∧
      (∀ i, i < bin_count → bc[i]? = some 0) := by
  obtain ⟨bm, bc, hrun, hl1, hl2, hv1, hv2⟩ :=
    Gen_bins_loop min_meas ((max_meas - min_meas) / (bin_count : ℚ)) bin_count 0
      m_bin_maxes m_bin_counts (by omega) (by omega)
  have hbpos : (0 : ℚ) < (bin_count : ℚ) := by exact_mod_cast hb
  have hw : 0 < (max_meas - min_meas) / (bin_count : ℚ) := div_pos (by linarith) hbpos
  have hval : ∀ i, i < bin_count →
      bm[i]? = some (min_meas + ((i : ℚ) + 1) * (max_meas - min_meas) / (bin_count : ℚ)) := by
    intro i hi
    rw [hv1 i, if_pos (by omega)]
    congr 1
    push_cast
    ring
  have hget : ∀ i (hi : i < bm.length),
      bm[i] = min_meas + ((i : ℚ) + 1) * ((max_meas - min_meas) / (bin_count : ℚ)) := by
    intro i hi
    have := hval i (by omega)
    rw [List.getElem?_eq_getElem hi] at this
    rw [Option.some.inj this]
    ring
  refine ⟨bm, bc, hrun, by omega, by omega, hval, ?_, ?_, ?_, ?_⟩
  · unfold List.Sorted
    rw [List.pairwise_iff_getElem]
    intro i j hi hj hij
    rw [hget i hi, hget j hj]
    have : (i : ℚ) < (j : ℚ) := by exact_mod_cast hij
    have := mul_lt_mul_of_pos_right (show (i : ℚ) + 1 < (j : ℚ) + 1 by linarith) hw
    linarith
  · unfold upper_bound
    rw [getD_of_getElem? (hval 0 (by omega))]
    have : min_meas + ((0 : Nat) + 1 : ℚ) * (max_meas - min_meas) / (bin_count : ℚ) =
        min_meas + (max_meas - min_meas) / (bin_count : ℚ) := by
      push_cast; ring
    rw [this]
    linarith
  · unfold upper_bound
    rw [getD_of_getElem? (hval (bin_count - 1) (by omega))]
    have hc : ((bin_count - 1 : Nat) : ℚ) + 1 = (bin_count : ℚ) := by
      have : bin_count - 1 + 1 = bin_count := by omega
      exact_mod_cast this
    rw [hc]
    field_simp
  · intro i hi
    rw [hv2 i, if_pos (by omega)]

theorem Gen_bins_table_witness :
    ∃ (bm : List ℚ) (bc : List Int),
      Gen_bins 0 1 [9, 9, 9, 9] [5, 5, 5, 5] 4 = .ok (bm, bc) ∧
      bm.length = 4 ∧ bc.length = 4 ∧
      (∀ i : Nat, i < 4 →
        bm[i]? = some ((0 : ℚ) + ((i : ℚ) + 1) * (1 - 0) / ((4 : Nat) : ℚ))) ∧
      bm.Sorted (· < ·) ∧
      (0 : ℚ) < upper_bound bm 0 ∧
      upper_bound bm (4 - 1) = 1 ∧
      (∀ i : Nat, i < 4 → bc[i]? = some 0) :=
  Gen_bins_table 0 1 4 [9, 9, 9, 9] [5, 5, 5, 5] (by norm_num) (by decide) rfl rfl

/-! ## The whole run on concrete inputs -/

/-- C1 (defect in the code): `main` never clears the block it allocates for
`local_bins` (line 94), and the local phase only increments it (line 369).
With one bin over `[0, 1)`, one worker, the single measurement `1/2` and a
block that holds `7`, the run ends with `bin_counts[0] = 8` although exactly one
measurement lies in bin 0. -/
theorem main_counts_uninitialised :
    Allocated 1 1 1 [0] [0] [1/2] [7] ∧
    (∀ x ∈ [(1/2 : ℚ)], (0 : ℚ) ≤ x ∧ x < 1) ∧
    ∃ g, main 1 0 1 1 1 [0] [0] [1/2] [7] = .ok g ∧
      g.bin_counts[0]? = some 8 ∧
      bin_population g.bin_maxes g.min_meas g.data g.data_count 0 = 1 := by
  refine ⟨by simp [Allocated], by norm_num, ?_⟩
  refine ⟨{ local_bins := [8], data := [1/2], bin_counts := [8], min_meas := 0, max_meas := 1,
            bin_maxes := [1], bin_count := 1, thread_count := 1, data_count := 1 }, ?_, rfl, ?_⟩
  · norm_num [main, Gen_bins, for_up, Gen_bins_body, wr, ok_bind, run_threads, run_list,
      local_phase, start_n, stop_n, num_elements, local_body, rd, rdI, wrI, Which_bin,
      Which_bin_loop, consolidation_phase, owned_bins, reduce_bin, column_sum_body,
      bind, Except.bind, pure, Except.pure]
  · norm_num [bin_population, in_bin, lower_bound, upper_bound, List.range, List.range.loop]

/-- C8 (defect in the code, the same as for C1): with two bins over `[0, 1)`,
one worker, the measurements `1/4` and `3/4` and a block for `local_bins` that
holds `-1, 0`, the run ends with `bin_counts = [0, 1]`, whose sum is 1 while
`data_count` is 2. -/
theorem main_sum_uninitialised :
    Allocated 2 2 1 [0, 0] [0, 0] [1/4, 3/4] [-1, 0] ∧
    (∀ x ∈ [(1/4 : ℚ), 3/4], (0 : ℚ) ≤ x ∧ x < 1) ∧
    ∃ g, main 2 0 1 2 1 [0, 0] [0, 0] [1/4, 3/4] [-1, 0] = .ok g ∧
      g.bin_counts = [0, 1] ∧ g.bin_counts.sum = 1 ∧ g.data_count = 2 := by
  refine ⟨by simp [Allocated], by norm_num, ?_⟩
  refine ⟨{ local_bins := [0, 1], data := [1/4, 3/4], bin_counts := [0, 1], min_meas := 0,
            max_meas := 1, bin_maxes := [1/2, 1], bin_count := 2, thread_count := 1,
            data_count := 2 }, ?_, rfl, rfl, rfl⟩
  norm_num [main, Gen_bins, for_up, Gen_bins_body, wr, ok_bind, run_threads, run_list,
    local_phase, start_n, stop_n, num_elements, local_body, rd, rdI, wrI, Which_bin,
    Which_bin_loop, consolidation_phase, owned_bins, reduce_bin, column_sum_body,
    bind, Except.bind, pure, Except.pure, stripe_bins, Int.tdiv_eq_ediv]

/-! ## The barrier (lines 372-384) -/

/-- C10 (defect in the code): the loop of line 382 tests the return value of
`pthread_cond_wait`, not the arrival of the last worker.  With two workers:
worker 0 finishes its local phase, takes the mutex, increments `counter` to 1
and waits; its wait wakes spuriously and returns 0, so the loop ends; worker 0
unlocks and runs its whole consolidation phase while worker 1 has not finished
its local accumulation phase. -/
theorem barrier_broken_by_spurious_wakeup :
    ∃ s, run_events (sync_init 2)
        [.step 0, .step 0, .step 0, .spurious 0, .step 0, .step 0, .step 0] = some s ∧
      s.pcs = [Pc.finished, Pc.accumulating] ∧ order_violated s :=
  ⟨{ pcs := [Pc.finished, Pc.accumulating], counter := 1, mutex := none, thread_count := 2 },
    by decide, rfl, by decide⟩


theorem before_release_set {pcs : List Pc} {id : Nat} {pc : Pc} (h : before_release pcs)
    (hpc : pc = Pc.accumulating ∨ pc = Pc.at_lock ∨ pc = Pc.arrived ∨ pc = Pc.waiting) :
    before_release (pcs.set id pc) := by
  intro x hx
  rcases List.mem_or_eq_of_mem_set hx with h1 | h1
  · exact h x h1
  · rw [h1]; exact hpc

theorem after_release_set {pcs : List Pc} {id : Nat} {pc : Pc} (h : after_release pcs)
    (hpc : pc = Pc.woken ∨ pc = Pc.at_unlock ∨ pc = Pc.consolidating ∨ pc = Pc.finished) :
    after_release (pcs.set id pc) := by
  intro x hx
  rcases List.mem_or_eq_of_mem_set hx with h1 | h1
  · exact h x h1
  · rw [h1]; exact hpc

theorem getElem?_lt {pcs : List Pc} {id : Nat} {pc : Pc} (h : pcs[id]? = some pc) :
    id < pcs.length := by
  by_contra hc
  rw [List.getElem?_eq_none (by omega)] at h
  cases h

/-- Replacing a control point other than `waiting` by another one other than
`waiting` keeps the number of waiters. -/
theorem count_waiting_set_same {pcs : List Pc} {id : Nat} {old new : Pc}
    (h : pcs[id]? = some old) (hold : old ≠ Pc.waiting) (hnew : new ≠ Pc.waiting) :
    (pcs.set id new).count Pc.waiting = pcs.count Pc.waiting := by
  have hlt := getElem?_lt h
  have hget : pcs[id] = old := by
    rw [List.getElem?_eq_getElem hlt] at h
    exact Option.some.inj h
  rw [List.count_set _ _ _ _ hlt, hget]
  simp [hold, hnew]

/-- A worker that starts to wait adds one waiter. -/
theorem count_waiting_set_wait {pcs : List Pc} {id : Nat} {old : Pc}
    (h : pcs[id]? = some old) (hold : old ≠ Pc.waiting) :
    (pcs.set id Pc.waiting).count Pc.waiting = pcs.count Pc.waiting + 1 := by
  have hlt := getElem?_lt h
  have hget : pcs[id] = old := by
    rw [List.getElem?_eq_getElem hlt] at h
    exact Option.some.inj h
  rw [List.count_set _ _ _ _ hlt, hget]
  simp [hold]

/-- When all workers but the one at index `id` are blocked waiters, the
broadcast followed by the move of worker `id` leaves everybody released. -/
theorem broadcast_releases_all :
    ∀ (pcs : List Pc) (id : Nat), pcs[id]? = some Pc.arrived →
      pcs.count Pc.waiting + 1 = pcs.length →
      after_release ((broadcast pcs).set id Pc.at_unlock) := by
  intro pcs
  induction pcs with
  | nil => intro id h; simp at h
  | cons x xs ih =>
    intro id hid hcount
    cases id with
    | zero =>
      have hx : x = Pc.arrived := by simpa using hid
      subst hx
      have hall : List.count Pc.waiting xs = xs.length := by
        simp [List.count_cons] at hcount
        exact hcount
      have hall2 := List.count_eq_length.mp hall
      intro pc hpc
      simp only [broadcast, List.map_cons, List.set_cons_zero, List.mem_cons, List.mem_map] at hpc
      rcases hpc with h | ⟨y, hy, rfl⟩
      · exact Or.inr (Or.inl h)
      · rw [← hall2 y hy]
        simp
    | succ n =>
      have hn : xs[n]? = some Pc.arrived := by simpa using hid
      have hlt : List.count Pc.waiting xs < xs.length := by
        rcases Nat.lt_or_ge (List.count Pc.waiting xs) xs.length with h | h
        · exact h
        · have heq : List.count Pc.waiting xs = xs.length :=
            Nat.le_antisymm (List.count_le_length _ _) h
          have hall2 := List.count_eq_length.mp heq
          have hmem : Pc.arrived ∈ xs := List.getElem?_mem hn
          have := hall2 _ hmem
          cases this
      have hx : x = Pc.waiting := by
        by_contra hne
        have hbeq : (x == Pc.waiting) = false := by simpa using hne
        simp only [List.count_cons, hbeq, Bool.false_eq_true, if_false, List.length_cons] at hcount
        omega
      subst hx
      have hcount2 : List.count Pc.waiting xs + 1 = xs.length := by
        simp [List.count_cons] at hcount
        omega
      have := ih n hn hcount2
      intro pc hpc
      simp only [broadcast, List.map_cons, List.set_cons_succ, List.mem_cons] at hpc
      rcases hpc with h | h
      · left; rw [h]; simp
      · exact this pc h

/-- A step of a worker keeps the invariant of the barrier. -/
theorem barrier_inv_step (s s2 : Sync) (id : Nat) (hinv : barrier_inv s)
    (hstep : sync_step s (.step id) = some s2) : barrier_inv s2 := by
  obtain ⟨hlen, hphase⟩ := hinv
  unfold sync_step at hstep
  cases hpc : s.pcs[id]? with
  | none => simp [hpc] at hstep
  | some pc =>
    have hmem : pc ∈ s.pcs := List.getElem?_mem hpc
    rcases hphase with ⟨hbefore, hcounter⟩ | hafter
    · -- nobody released yet
      rcases hbefore pc hmem with h | h | h | h <;> subst h <;> simp only [hpc] at hstep
      · cases hstep
        exact ⟨by simpa using hlen, Or.inl ⟨before_release_set hbefore (by simp),
          by rw [count_waiting_set_same hpc (by simp) (by simp)]; exact hcounter⟩⟩
      · split at hstep
        · cases hstep
          exact ⟨by simpa using hlen, Or.inl ⟨before_release_set hbefore (by simp),
            by rw [count_waiting_set_same hpc (by simp) (by simp)]; exact hcounter⟩⟩
        · cases hstep
      · split at hstep
        · cases hstep
          refine ⟨by simpa [broadcast] using hlen, Or.inr ?_⟩
          exact broadcast_releases_all s.pcs id hpc (by omega)
        · cases hstep
          exact ⟨by simpa using hlen, Or.inl ⟨before_release_set hbefore (by simp),
            by rw [count_waiting_set_wait hpc (by simp)]; simp [hcounter]⟩⟩
      · cases hstep
    · -- everybody released
      rcases hafter pc hmem with h | h | h | h <;> subst h <;> simp only [hpc] at hstep
      · split at hstep
        · cases hstep
          exact ⟨by simpa using hlen, Or.inr (after_release_set hafter (by simp))⟩
        · cases hstep
      · cases hstep
        exact ⟨by simpa using hlen, Or.inr (after_release_set hafter (by simp))⟩
      · cases hstep
        exact ⟨by simpa using hlen, Or.inr (after_release_set hafter (by simp))⟩
      · cases hstep

theorem barrier_inv_init (t : Nat) : barrier_inv (sync_init t) := by
  refine ⟨by simp [sync_init], Or.inl ⟨?_, ?_⟩⟩
  · intro pc hpc
    simp only [sync_init] at hpc
    exact Or.inl (List.eq_of_mem_replicate hpc)
  · simp [sync_init, List.count_replicate]

theorem barrier_inv_run (es : List Event) :
    ∀ (s s2 : Sync), barrier_inv s → (∀ e ∈ es, ∃ id, e = Event.step id) →
      run_events s es = some s2 → barrier_inv s2 := by
  induction es with
  | nil =>
    intro s s2 hinv _ hrun
    simp only [run_events] at hrun
    cases hrun
    exact hinv
  | cons e es ih =>
    intro s s2 hinv hes hrun
    obtain ⟨id, rfl⟩ := hes e (List.mem_cons_self e es)
    simp only [run_events] at hrun
    cases hstep : sync_step s (.step id) with
    | none => simp [hstep] at hrun
    | some s1 =>
      simp only [hstep] at hrun
      exact ih s1 s2 (barrier_inv_step s s1 id hinv hstep)
        (fun e he => hes e (List.mem_cons_of_mem _ he)) hrun

/-- Without spurious wakeups the barrier of lines 372-384 enforces the
ordering: in every schedule of worker steps, no state is reached in which a
worker is in or past its consolidation phase while another has not finished its
local accumulation phase. -/
theorem barrier_order_without_spurious (t : Nat) (es : List Event) (s : Sync)
    (hes : ∀ e ∈ es, ∃ id, e = Event.step id)
    (hrun : run_events (sync_init t) es = some s) : ¬ order_violated s := by
  obtain ⟨_, hphase⟩ := barrier_inv_run es (sync_init t) s (barrier_inv_init t) hes hrun
  rintro ⟨hacc, hcons⟩
  rcases hphase with ⟨hbefore, _⟩ | hafter
  · rcases hcons with h | h
    · rcases hbefore _ h with h1 | h1 | h1 | h1 <;> cases h1
    · rcases hbefore _ h with h1 | h1 | h1 | h1 <;> cases h1
  · rcases hafter _ hacc with h1 | h1 | h1 | h1 <;> cases h1

/-! ## Local accumulation (lines 362-370) -/

theorem rdI_getD {α : Type} {a : List α} {i : Nat} (d : α) (h : i < a.length) :
    rdI a (i : Int) = .ok (a.getD i d) := by
  simp [rdI, rd_getD d h]

theorem wrI_ofNat {α : Type} {a : List α} {i : Nat} (v : α) (h : i < a.length) :
    wrI a (i : Int) v = .ok (a.set i v) := by
  simp [wrI, wr, h]

/-- In a state with a sound table, `Which_bin` returns for every measurement of
the data the one bin that holds it. -/
theorem Which_bin_in_range (g : Globals) (htable : table_ok g) (k : Nat)
    (hk : k < g.data.length) :
    ∃ i : Nat, i < g.bin_count ∧
      Which_bin (g.data.getD k 0) g.bin_maxes g.bin_count g.min_meas = .ok (i : Int) ∧
      ∀ m, m < g.bin_count → (in_bin g.bin_maxes g.min_meas (g.data.getD k 0) m ↔ m = i) := by
  obtain ⟨hb, hlen, hmono, hdata⟩ := htable
  obtain ⟨hlo, hhi⟩ := hdata k hk
  obtain ⟨a, ha, hina⟩ := exists_in_bin g.bin_maxes g.bin_count hb hlo hhi
  rcases Which_bin_spec (g.data.getD k 0) g.bin_maxes g.bin_count g.min_meas hlen hmono with
    ⟨i, hr, hi, hin⟩ | ⟨_, hno⟩
  · refine ⟨i, hi, hr, fun m hm => ⟨fun h => ?_, fun h => h ▸ hin⟩⟩
    exact in_bin_unique hmono (by omega) (by omega) h hin
  · exact absurd hina (hno a ha)

/-- One iteration of the local loop increments the counter of the bin that
`Which_bin` returns, in the row of the worker. -/
theorem local_body_ok (id k : Nat) (g : Globals) (i : Nat) (hk : k < g.data.length)
    (hbin : Which_bin (g.data.getD k 0) g.bin_maxes g.bin_count g.min_meas = .ok (i : Int))
    (hidx : id * g.bin_count + i < g.local_bins.length) :
    local_body id k g = .ok
      { g with
        local_bins :=
          g.local_bins.set (id * g.bin_count + i)
            (g.local_bins.getD (id * g.bin_count + i) 0 + 1) } := by
  unfold local_body
  rw [rd_getD 0 hk, ok_bind, hbin, ok_bind]
  have hj : ((id * g.bin_count : Nat) : Int) + (i : Int) = ((id * g.bin_count + i : Nat) : Int) := by
    push_cast; rfl
  simp only [hj]
  rw [rdI_getD 0 hidx, ok_bind, wrI_ofNat _ hidx, ok_bind]
  rfl


theorem row_col_inj (bc id r b m : Nat) (hb : b < bc) (hm : m < bc) :
    id * bc + b = r * bc + m ↔ id = r ∧ b = m := by
  constructor
  · intro h
    have hid : id = r := by
      by_contra hne
      rcases Nat.lt_or_gt_of_ne hne with hlt | hlt
      · have := Nat.mul_le_mul_right bc (show id + 1 ≤ r from hlt)
        rw [Nat.add_mul, Nat.one_mul] at this
        omega
      · have := Nat.mul_le_mul_right bc (show r + 1 ≤ id from hlt)
        rw [Nat.add_mul, Nat.one_mul] at this
        omega
    subst hid
    exact ⟨rfl, by omega⟩
  · rintro ⟨rfl, rfl⟩
    rfl

theorem getD_set_int (l : List Int) (i j : Nat) (v : Int) (hi : i < l.length) :
    (l.set i v).getD j 0 = if i = j then v else l.getD j 0 := by
  simp only [List.getD_eq_getElem?_getD, List.getElem?_set]
  by_cases h : i = j
  · subst h
    simp [hi]
  · simp [h]

theorem slice_population_succ (bm : List ℚ) (mn : ℚ) (data : List ℚ) (lo n m : Nat) :
    slice_population bm mn data lo (n + 1) m =
      (if in_bin bm mn (data.getD lo 0) m then 1 else 0) +
        slice_population bm mn data (lo + 1) n m := by
  unfold slice_population
  rw [List.range'_succ, List.filter_cons]
  by_cases h : in_bin bm mn (data.getD lo 0) m
  · rw [if_pos (decide_eq_true h), if_pos h, List.length_cons]
    omega
  · rw [if_neg (fun hc => h (of_decide_eq_true hc)), if_neg h]
    omega

theorem only_local_bins_changed_trans {g g1 g2 : Globals}
    (h1 : only_local_bins_changed g g1) (h2 : only_local_bins_changed g1 g2) :
    only_local_bins_changed g g2 := by
  unfold only_local_bins_changed at *
  rw [h2, h1]

theorem table_ok_of_only_local_bins_changed {g g1 : Globals}
    (h : only_local_bins_changed g g1) (htable : table_ok g) : table_ok g1 := by
  unfold only_local_bins_changed at h
  rw [h]
  exact htable

/-- The local loop over the data indices `[i, i + n)`: the counter of bin `m`
in the row of worker `id` grows by the number of measurements of that range
that lie in bin `m`; the other rows keep their content and nothing but
`local_bins` changes. -/
theorem local_loop_ok (id : Nat) :
    ∀ (n i : Nat) (g : Globals), table_ok g → i + n ≤ g.data.length →
      (id + 1) * g.bin_count ≤ g.local_bins.length →
      ∃ g2, for_up (local_body id) n i g = .ok g2 ∧ only_local_bins_changed g g2 ∧
        g2.local_bins.length = g.local_bins.length ∧
        ∀ r m, m < g.bin_count →
          g2.local_bins.getD (r * g.bin_count + m) 0 =
            g.local_bins.getD (r * g.bin_count + m) 0 +
              (if r = id then
                (slice_population g.bin_maxes g.min_meas g.data i n m : Int) else 0) := by
  intro n
  induction n with
  | zero =>
    intro i g _ _ _
    refine ⟨g, rfl, rfl, rfl, fun r m _ => ?_⟩
    simp [slice_population]
  | succ n ih =>
    intro i g htable hdata hrow
    obtain ⟨b, hb, hbin, huniq⟩ := Which_bin_in_range g htable i (by omega)
    have hidx : id * g.bin_count + b < g.local_bins.length := by
      rw [Nat.add_mul, Nat.one_mul] at hrow
      omega
    have hbody := local_body_ok id i g b (by omega) hbin hidx
    let v := g.local_bins.getD (id * g.bin_count + b) 0 + 1
    let g1 : Globals := { g with local_bins := g.local_bins.set (id * g.bin_count + b) v }
    have hframe1 : only_local_bins_changed g g1 := by
      unfold only_local_bins_changed; rfl
    have hlen1 : g1.local_bins.length = g.local_bins.length := by
      show (g.local_bins.set (id * g.bin_count + b) v).length = _
      simp
    obtain ⟨g2, hrun, hframe2, hlen2, hval⟩ := ih (i + 1) g1
      (table_ok_of_only_local_bins_changed hframe1 htable)
      (by show i + 1 + n ≤ g.data.length; omega)
      (by rw [hlen1]; exact hrow)
    refine ⟨g2, ?_, only_local_bins_changed_trans hframe1 hframe2, by rw [hlen2, hlen1], ?_⟩
    · rw [for_up, hbody]
      exact hrun
    · intro r m hm
      have h2 := hval r m hm
      have h1 : g1.local_bins.getD (r * g.bin_count + m) 0 =
          if id * g.bin_count + b = r * g.bin_count + m then v
          else g.local_bins.getD (r * g.bin_count + m) 0 :=
        getD_set_int g.local_bins _ _ v hidx
      have hpop := slice_population_succ g.bin_maxes g.min_meas g.data i n m
      have hiff := row_col_inj g.bin_count id r b m hb hm
      have hin := huniq m hm
      change g2.local_bins.getD (r * g.bin_count + m) 0 =
        g1.local_bins.getD (r * g.bin_count + m) 0 +
          (if r = id then
            (slice_population g.bin_maxes g.min_meas g.data (i + 1) n m : Int) else 0) at h2
      rw [h2, h1, hpop]
      by_cases hr : r = id
      · subst hr
        by_cases hmb : m = b
        · subst hmb
          rw [if_pos rfl, if_pos rfl, if_pos rfl, if_pos (hin.mpr rfl)]
          show g.local_bins.getD (r * g.bin_count + m) 0 + 1 + _ = _
          push_cast
          ring
        · rw [if_neg (fun h => hmb (hiff.mp h).2.symm), if_pos rfl, if_pos rfl,
            if_neg (fun h => hmb (hin.mp h))]
          push_cast
          ring
      · rw [if_neg (fun h => hr (hiff.mp h).1.symm), if_neg hr, if_neg hr]


theorem stop_n_le (n t id : Nat) (hid : id < t) : stop_n n t id ≤ n := by
  by_cases hlast : id + 1 < t
  · rw [stop_n_inner n t id hlast]
    have h1 := start_n_mono n t (i := id + 1) (j := t - 1) (by omega)
    have h2 := start_le_stop n t (t - 1)
    have h3 := stop_n_last n t (by omega)
    omega
  · have : id = t - 1 := by omega
    rw [this, stop_n_last n t (by omega)]

/-- Local phase of worker `id`: the counter of bin `m` in row `id` grows by the
number of measurements of the slice of the worker that lie in bin `m`; the
other rows keep their content and nothing but `local_bins` changes. -/
theorem local_phase_ok (id : Nat) (g : Globals) (htable : table_ok g)
    (hid : id < g.thread_count) (hdata : g.data.length = g.data_count)
    (hlocal : g.local_bins.length = g.bin_count * g.thread_count) :
    ∃ g2, local_phase id g = .ok g2 ∧ only_local_bins_changed g g2 ∧
      g2.local_bins.length = g.local_bins.length ∧
      ∀ r m, m < g.bin_count →
        g2.local_bins.getD (r * g.bin_count + m) 0 =
          g.local_bins.getD (r * g.bin_count + m) 0 +
            (if r = id then (worker_population g id m : Int) else 0) := by
  have hle := start_le_stop g.data_count g.thread_count id
  have hstop := stop_n_le g.data_count g.thread_count id hid
  have hrow : (id + 1) * g.bin_count ≤ g.local_bins.length := by
    rw [hlocal, Nat.mul_comm g.bin_count]
    exact Nat.mul_le_mul_right _ hid
  exact local_loop_ok id _ _ g htable (by omega) hrow

/-- Local phases of a list of distinct workers, in any order. -/
theorem run_local_phases (ids : List Nat) :
    ∀ (g : Globals), table_ok g → ids.Nodup → (∀ id ∈ ids, id < g.thread_count) →
      g.data.length = g.data_count →
      g.local_bins.length = g.bin_count * g.thread_count →
      ∃ g2, run_list local_phase ids g = .ok g2 ∧ only_local_bins_changed g g2 ∧
        g2.local_bins.length = g.local_bins.length ∧
        ∀ r m, m < g.bin_count →
          g2.local_bins.getD (r * g.bin_count + m) 0 =
            g.local_bins.getD (r * g.bin_count + m) 0 +
              (if r ∈ ids then (worker_population g r m : Int) else 0) := by
  induction ids with
  | nil =>
    intro g _ _ _ _ _
    exact ⟨g, rfl, rfl, rfl, fun r m _ => by simp⟩
  | cons a ids ih =>
    intro g htable hnodup hids hdata hlocal
    obtain ⟨g1, hrun1, hframe1, hlen1, hval1⟩ :=
      local_phase_ok a g htable (hids a (List.mem_cons_self a ids)) hdata hlocal
    have hg1 : g1 = { g with local_bins := g1.local_bins } := hframe1
    have hbc : g1.bin_count = g.bin_count := by rw [hg1]
    have htc : g1.thread_count = g.thread_count := by rw [hg1]
    have hdc : g1.data_count = g.data_count := by rw [hg1]
    have hda : g1.data = g.data := by rw [hg1]
    have hwp : ∀ r m, worker_population g1 r m = worker_population g r m := by
      intro r m
      rw [hg1]
      rfl
    obtain ⟨g2, hrun2, hframe2, hlen2, hval2⟩ := ih g1
      (table_ok_of_only_local_bins_changed hframe1 htable)
      (List.nodup_cons.mp hnodup).2
      (fun id hid => by rw [htc]; exact hids id (List.mem_cons_of_mem a hid))
      (by rw [hda, hdc]; exact hdata)
      (by rw [hlen1, hbc, htc]; exact hlocal)
    refine ⟨g2, ?_, only_local_bins_changed_trans hframe1 hframe2, by rw [hlen2, hlen1], ?_⟩
    · rw [run_list, hrun1]
      exact hrun2
    · intro r m hm
      have h2 := hval2 r m (by rw [hbc]; exact hm)
      rw [hbc, hwp] at h2
      rw [h2, hval1 r m hm]
      have hanot : a ∉ ids := (List.nodup_cons.mp hnodup).1
      by_cases hra : r = a
      · subst hra
        rw [if_pos rfl, if_neg hanot, if_pos (List.mem_cons_self r ids)]
        ring
      · rw [if_neg hra]
        by_cases hin : r ∈ ids
        · rw [if_pos hin, if_pos (List.mem_cons_of_mem a hin)]
          ring
        · rw [if_neg hin, if_neg (by simp [hra, hin])]
          ring

/-! ## The whole computation -/

theorem slice_population_add (bm : List ℚ) (mn : ℚ) (data : List ℚ) (lo a b m : Nat) :
    slice_population bm mn data lo (a + b) m =
      slice_population bm mn data lo a m + slice_population bm mn data (lo + a) b m := by
  unfold slice_population
  rw [Nat.add_comm a b, ← List.range'_append_1, List.filter_append, List.length_append]

theorem bin_population_eq (bm : List ℚ) (mn : ℚ) (data : List ℚ) (n m : Nat) :
    bin_population bm mn data n m = slice_population bm mn data 0 n m := by
  unfold bin_population slice_population
  rw [List.range_eq_range']

/-- The slices of the first `j` workers hold the measurements of
`[0, start_n j)`. -/
theorem worker_population_prefix (g : Globals) (m : Nat) :
    ∀ j, j < g.thread_count →
      ((List.range j).map (fun k => (worker_population g k m : Int))).sum =
        (slice_population g.bin_maxes g.min_meas g.data 0
          (start_n g.data_count g.thread_count j) m : Int) := by
  intro j
  induction j with
  | zero =>
    intro _
    simp [start_n, slice_population]
  | succ j ih =>
    intro hj
    rw [List.range_succ, List.map_append, List.sum_append, ih (by omega)]
    have hstop := stop_n_inner g.data_count g.thread_count j hj
    have hle := start_le_stop g.data_count g.thread_count j
    have hsplit : start_n g.data_count g.thread_count (j + 1) =
        start_n g.data_count g.thread_count j +
          (stop_n g.data_count g.thread_count j - start_n g.data_count g.thread_count j) := by
      omega
    rw [hsplit, slice_population_add]
    simp [worker_population]

/-- The slices of all workers together hold every measurement once. -/
theorem worker_population_total (g : Globals) (m : Nat) (ht : 1 ≤ g.thread_count) :
    ((List.range g.thread_count).map (fun k => (worker_population g k m : Int))).sum =
      (bin_population g.bin_maxes g.min_meas g.data g.data_count m : Int) := by
  have hpre := worker_population_prefix g m (g.thread_count - 1) (by omega)
  have hlast := stop_n_last g.data_count g.thread_count ht
  have hle := start_le_stop g.data_count g.thread_count (g.thread_count - 1)
  have hrange : g.thread_count = (g.thread_count - 1) + 1 := by omega
  have hsplit : g.data_count = start_n g.data_count g.thread_count (g.thread_count - 1) +
      (stop_n g.data_count g.thread_count (g.thread_count - 1) -
        start_n g.data_count g.thread_count (g.thread_count - 1)) := by
    omega
  rw [bin_population_eq]
  conv_lhs => rw [hrange]
  rw [List.range_succ, List.map_append, List.sum_append, hpre]
  conv_rhs => rw [hsplit]
  rw [slice_population_add]
  simp [worker_population]


theorem sum_map_add_int (l : List Nat) (f h : Nat → Int) :
    (l.map (fun k => f k + h k)).sum = (l.map f).sum + (l.map h).sum := by
  induction l with
  | nil => simp
  | cons a t ih =>
    simp only [List.map_cons, List.sum_cons, ih]
    ring

/-- After the local phases of all workers, column `m` of the worker-local
matrix sums to its initial sum plus the number of measurements in bin `m`. -/
theorem column_total_after_locals (g g1 : Globals) (ids : List Nat) (m : Nat)
    (ht : 1 ≤ g.thread_count) (hm : m < g.bin_count)
    (hids : ∀ r, r < g.thread_count → r ∈ ids)
    (hval : ∀ r m, m < g.bin_count →
      g1.local_bins.getD (r * g.bin_count + m) 0 =
        g.local_bins.getD (r * g.bin_count + m) 0 +
          (if r ∈ ids then (worker_population g r m : Int) else 0)) :
    column_total g1.local_bins g.bin_count g.thread_count m =
      column_total g.local_bins g.bin_count g.thread_count m +
        (bin_population g.bin_maxes g.min_meas g.data g.data_count m : Int) := by
  unfold column_total
  rw [← worker_population_total g m ht, ← sum_map_add_int]
  congr 1
  apply List.map_congr_left
  intro k hk
  rw [hval k m hm, if_pos (hids k (List.mem_range.mp hk))]

/-- Both phases of all workers on a state with a sound table, the local phases
in any order and then the consolidation phases in any order: `bin_counts[m]`
ends as the number of measurements in bin `m` plus the sum of what column `m`
of the worker-local matrix held before the workers started. -/
theorem run_threads_counts (g : Globals) (locals consolidations : List Nat)
    (htable : table_ok g) (ht : 1 ≤ g.thread_count)
    (hdata : g.data.length = g.data_count)
    (hlocal : g.local_bins.length = g.bin_count * g.thread_count)
    (hcounts : g.bin_counts.length = g.bin_count)
    (hl : locals.Perm (List.range g.thread_count))
    (hc : consolidations.Perm (List.range g.thread_count)) :
    ∃ g2, run_threads locals consolidations g = .ok g2 ∧
      g2.bin_counts.length = g.bin_count ∧
      ∀ m, m < g.bin_count →
        g2.bin_counts[m]? = some
          ((bin_population g.bin_maxes g.min_meas g.data g.data_count m : Int) +
            column_total g.local_bins g.bin_count g.thread_count m) := by
  obtain ⟨g1, hrun1, hframe1, hlen1, hval1⟩ := run_local_phases locals g htable
    (hl.nodup_iff.mpr (List.nodup_range _))
    (fun id hid => List.mem_range.mp (hl.mem_iff.mp hid)) hdata hlocal
  have hg1 : g1 = { g with local_bins := g1.local_bins } := hframe1
  have hbc : g1.bin_count = g.bin_count := by rw [hg1]
  have htc : g1.thread_count = g.thread_count := by rw [hg1]
  have hcs : g1.bin_counts = g.bin_counts := by rw [hg1]
  obtain ⟨g2, hrun2, _, hlen2, hval2⟩ := run_consolidation_phases consolidations g1
    (by rw [htc]; exact ht)
    (fun id hid => by rw [htc]; exact List.mem_range.mp (hc.mem_iff.mp hid))
    (by rw [hlen1, hbc, htc]; exact hlocal) (by rw [hcs, hbc]; exact hcounts)
  refine ⟨g2, ?_, by rw [hlen2, hbc], ?_⟩
  · unfold run_threads
    rw [hrun1, ok_bind]
    exact hrun2
  · intro m hm
    have hin : m % g.thread_count ∈ consolidations :=
      hc.mem_iff.mpr (List.mem_range.mpr (Nat.mod_lt m (by omega)))
    rw [hval2 m, hbc, htc, if_pos ⟨hm, hin⟩]
    rw [column_total_after_locals g g1 locals m ht hm
      (fun r hr => hl.mem_iff.mpr (List.mem_range.mpr hr)) hval1]
    congr 1
    ring


/-- The table `Gen_bins` builds for `min < max` and `bin_count >= 1` is
increasing and ends at `max`. -/
theorem Gen_bins_sound (min_meas max_meas : ℚ) (bin_count : Nat)
    (m_bin_maxes : List ℚ) (m_bin_counts : List Int)
    (hlt : min_meas < max_meas) (hb : 1 ≤ bin_count)
    (h1 : m_bin_maxes.length = bin_count) (h2 : m_bin_counts.length = bin_count) :
    ∃ bm bc, Gen_bins min_meas max_meas m_bin_maxes m_bin_counts bin_count = .ok (bm, bc) ∧
      bm.length = bin_count ∧ bc.length = bin_count ∧ MonoTable bm ∧
      upper_bound bm (bin_count - 1) = max_meas := by
  obtain ⟨bm, bc, hrun, hl1, hl2, hv1, _⟩ :=
    Gen_bins_loop min_meas ((max_meas - min_meas) / (bin_count : ℚ)) bin_count 0
      m_bin_maxes m_bin_counts (by omega) (by omega)
  have hbpos : (0 : ℚ) < (bin_count : ℚ) := by exact_mod_cast hb
  have hw : 0 < (max_meas - min_meas) / (bin_count : ℚ) := div_pos (by linarith) hbpos
  have hub : ∀ i, i < bin_count → upper_bound bm i =
      min_meas + ((i + 1 : Nat) : ℚ) * ((max_meas - min_meas) / (bin_count : ℚ)) := by
    intro i hi
    unfold upper_bound
    have := hv1 i
    rw [if_pos (by omega)] at this
    exact getD_of_getElem? this
  refine ⟨bm, bc, hrun, by omega, by omega, ?_, ?_⟩
  · intro i j hij hj
    rw [hub i (by omega), hub j (by omega)]
    have hc : ((i + 1 : Nat) : ℚ) ≤ ((j + 1 : Nat) : ℚ) := by exact_mod_cast (by omega : i + 1 ≤ j + 1)
    have := mul_le_mul_of_nonneg_right hc (le_of_lt hw)
    linarith
  · rw [hub (bin_count - 1) (by omega)]
    have hc : ((bin_count - 1 + 1 : Nat) : ℚ) = (bin_count : ℚ) := by
      have : bin_count - 1 + 1 = bin_count := by omega
      rw [this]
    rw [hc]
    field_simp

/-- The run of `main` for a valid configuration and measurements in
`[min, max)`, whatever the allocated blocks hold: `bin_counts[m]` ends as the
number of measurements in bin `m` plus the sum of what column `m` of the block
allocated for `local_bins` held. -/
theorem main_counts (bin_count : Nat) (min_meas max_meas : ℚ) (data_count thread_count : Nat)
    (m_bin_maxes : List ℚ) (m_bin_counts : List Int) (data : List ℚ) (m_local_bins : List Int)
    (hb : 1 ≤ bin_count) (hlt : min_meas < max_meas) (ht : 1 ≤ thread_count)
    (halloc : Allocated bin_count data_count thread_count m_bin_maxes m_bin_counts data
      m_local_bins)
    (hrange : ∀ x ∈ data, min_meas ≤ x ∧ x < max_meas) :
    ∃ bm bc g, Gen_bins min_meas max_meas m_bin_maxes m_bin_counts bin_count = .ok (bm, bc) ∧
      main bin_count min_meas max_meas data_count thread_count m_bin_maxes m_bin_counts data
        m_local_bins = .ok g ∧
      g.bin_counts.length = bin_count ∧
      ∀ m, m < bin_count →
        g.bin_counts[m]? = some
          ((bin_population bm min_meas data data_count m : Int) +
            column_total m_local_bins bin_count thread_count m) := by
  obtain ⟨ha1, ha2, ha3, ha4⟩ := halloc
  obtain ⟨bm, bc, hgen, hl1, hl2, hmono, hlast⟩ :=
    Gen_bins_sound min_meas max_meas bin_count m_bin_maxes m_bin_counts hlt hb ha1 ha2
  let g0 : Globals :=
    { local_bins := m_local_bins, data := data, bin_counts := bc,
      min_meas := min_meas, max_meas := max_meas, bin_maxes := bm,
      bin_count := bin_count, thread_count := thread_count, data_count := data_count }
  have htable : table_ok g0 := by
    refine ⟨hb, hl1, hmono, ?_⟩
    intro k hk
    have hk2 : k < data.length := hk
    have hmem : data.getD k 0 ∈ data := by
      rw [List.getD_eq_getElem _ _ hk2]
      exact List.getElem_mem hk2
    show min_meas ≤ data.getD k 0 ∧ data.getD k 0 < upper_bound bm (bin_count - 1)
    rw [hlast]
    exact hrange _ hmem
  obtain ⟨g, hrun, hlen, hval⟩ := run_threads_counts g0 (List.range thread_count)
    (List.range thread_count) htable ht ha3 ha4 hl2 (List.Perm.refl _) (List.Perm.refl _)
  refine ⟨bm, bc, g, hgen, ?_, hlen, hval⟩
  unfold main
  rw [hgen]
  exact hrun

theorem column_total_zero (lb : List Int) (bc t m : Nat) (hz : ∀ c ∈ lb, c = 0) :
    column_total lb bc t m = 0 := by
  unfold column_total
  apply List.sum_eq_zero
  intro x hx
  obtain ⟨k, _, rfl⟩ := List.mem_map.mp hx
  by_cases hk : k * bc + m < lb.length
  · rw [List.getD_eq_getElem _ _ hk]
    exact hz _ (List.getElem_mem hk)
  · rw [List.getD_eq_default _ _ (by omega)]

/-- The run of `main` when the block allocated for `local_bins` happens to be
all zero: `bin_counts[m]` ends as the number of measurements in bin `m`. -/
theorem main_counts_zeroed (bin_count : Nat) (min_meas max_meas : ℚ)
    (data_count thread_count : Nat)
    (m_bin_maxes : List ℚ) (m_bin_counts : List Int) (data : List ℚ) (m_local_bins : List Int)
    (hb : 1 ≤ bin_count) (hlt : min_meas < max_meas) (ht : 1 ≤ thread_count)
    (halloc : Allocated bin_count data_count thread_count m_bin_maxes m_bin_counts data
      m_local_bins)
    (hrange : ∀ x ∈ data, min_meas ≤ x ∧ x < max_meas)
    (hzero : ∀ c ∈ m_local_bins, c = 0) :
    ∃ bm bc g, Gen_bins min_meas max_meas m_bin_maxes m_bin_counts bin_count = .ok (bm, bc) ∧
      main bin_count min_meas max_meas data_count thread_count m_bin_maxes m_bin_counts data
        m_local_bins = .ok g ∧
      ∀ m, m < bin_count →
        g.bin_counts[m]? = some (bin_population bm min_meas data data_count m : Int) := by
  obtain ⟨bm, bc, g, hgen, hmain, _, hval⟩ := main_counts bin_count min_meas max_meas data_count
    thread_count m_bin_maxes m_bin_counts data m_local_bins hb hlt ht halloc hrange
  refine ⟨bm, bc, g, hgen, hmain, fun m hm => ?_⟩
  rw [hval m hm, column_total_zero _ _ _ _ hzero, add_zero]

/-! ## More workers than bins (lines 416-431) -/

/-- C11: when `thread_count > bin_count >= 1`, the consolidation phase of a
worker with `id >= bin_count` executes no write and returns the state as it
was; the consolidation phase of a worker with `id < bin_count` executes the one
write `bin_counts[id] = sum` (the column sum) and leaves every other entry of
`bin_counts` and every other global unchanged; so bin `m` is written once by
worker `m` and by no other worker. -/
theorem more_workers_than_bins (g : Globals) (id : Nat)
    (_hb : 1 ≤ g.bin_count) (hgt : g.thread_count > g.bin_count)
    (hlocal : g.local_bins.length = g.bin_count * g.thread_count)
    (hcounts : g.bin_counts.length = g.bin_count) :
    (g.bin_count ≤ id →
      owned_bins g.bin_count g.thread_count id = .ok [] ∧ consolidation_phase id g = .ok g) ∧
    (id < g.bin_count →
      owned_bins g.bin_count g.thread_count id = .ok [id] ∧
      ∃ g2, consolidation_phase id g = .ok g2 ∧ only_bin_counts_changed g g2 ∧
        g2.bin_counts =
          g.bin_counts.set id (column_total g.local_bins g.bin_count g.thread_count id) ∧
        ∀ m, m ≠ id → g2.bin_counts[m]? = g.bin_counts[m]?) ∧
    (∀ m, m < g.bin_count → ∀ id2, id2 < g.thread_count →
      ∃ ms, owned_bins g.bin_count g.thread_count id2 = .ok ms ∧
        ms.count m = if id2 = m then 1 else 0) := by
  have hnot : ¬ g.bin_count > g.thread_count := by omega
  refine ⟨?_, ?_, ?_⟩
  · intro hid
    have hown : owned_bins g.bin_count g.thread_count id = .ok [] := by
      unfold owned_bins
      rw [if_neg hnot, if_neg (by omega)]
    refine ⟨hown, ?_⟩
    unfold consolidation_phase
    rw [hown, ok_bind]
    rfl
  · intro hid
    have hown : owned_bins g.bin_count g.thread_count id = .ok [id] := by
      unfold owned_bins
      rw [if_neg hnot, if_pos hid]
    let v := column_total g.local_bins g.bin_count g.thread_count id
    let g1 : Globals := { g with bin_counts := g.bin_counts.set id v }
    refine ⟨hown, g1, ?_, ?_, rfl, ?_⟩
    · unfold consolidation_phase
      rw [hown, ok_bind, run_list, reduce_bin_ok id g hid hlocal hcounts]
      rfl
    · unfold only_bin_counts_changed
      rfl
    · intro m hm
      show (g.bin_counts.set id _)[m]? = g.bin_counts[m]?
      rw [List.getElem?_set, if_neg (fun h => hm h.symm)]
  · intro m hm id2 _
    unfold owned_bins
    rw [if_neg hnot]
    by_cases hid : id2 < g.bin_count
    · rw [if_pos hid]
      refine ⟨[id2], rfl, ?_⟩
      by_cases h : id2 = m
      · subst h; simp
      · rw [if_neg h]
        simp [List.count_cons, h]
    · rw [if_neg hid]
      refine ⟨[], rfl, ?_⟩
      rw [if_neg (by omega)]
      simp

theorem more_workers_than_bins_witness :
    (sample_globals_5_3.bin_count ≤ 4 →
      owned_bins sample_globals_5_3.bin_count sample_globals_5_3.thread_count 4 = .ok [] ∧
      consolidation_phase 4 sample_globals_5_3 = .ok sample_globals_5_3) ∧
    (4 < sample_globals_5_3.bin_count →
      owned_bins sample_globals_5_3.bin_count sample_globals_5_3.thread_count 4 = .ok [4] ∧
      ∃ g2, consolidation_phase 4 sample_globals_5_3 = .ok g2 ∧
        only_bin_counts_changed sample_globals_5_3 g2 ∧
        g2.bin_counts =
          sample_globals_5_3.bin_counts.set 4
            (column_total sample_globals_5_3.local_bins sample_globals_5_3.bin_count
              sample_globals_5_3.thread_count 4) ∧
        ∀ m, m ≠ 4 → g2.bin_counts[m]? = sample_globals_5_3.bin_counts[m]?) ∧
    (∀ m, m < sample_globals_5_3.bin_count → ∀ id2, id2 < sample_globals_5_3.thread_count →
      ∃ ms, owned_bins sample_globals_5_3.bin_count sample_globals_5_3.thread_count id2 =
          .ok ms ∧
        ms.count m = if id2 = m then 1 else 0) :=
  more_workers_than_bins sample_globals_5_3 4 (by decide) (by decide) (by decide) (by decide)

/-! ## The striped loop (lines 391-415) -/

/-- The striped loop started at `m0` that meets its bound after `n` bins
visits `m0, m0 + thread_count, ..., m0 + (n-1)*thread_count`. -/
theorem stripe_bins_eq_range (bc t : Nat) :
    ∀ (n fuel m0 : Nat), n < fuel → bc ≤ m0 + n * t → (∀ j, j < n → m0 + j * t < bc) →
      stripe_bins bc t fuel m0 = .ok (List.range' m0 n t) := by
  intro n
  induction n with
  | zero =>
    intro fuel m0 hfuel hend _
    obtain ⟨f, rfl⟩ : ∃ f, fuel = f + 1 := ⟨fuel - 1, by omega⟩
    rw [stripe_bins, if_neg (by omega)]
    rfl
  | succ n ih =>
    intro fuel m0 hfuel hend hin
    obtain ⟨f, rfl⟩ : ∃ f, fuel = f + 1 := ⟨fuel - 1, by omega⟩
    have h0 := hin 0 (by omega)
    rw [stripe_bins, if_pos (by omega)]
    rw [ih f (m0 + t) (by omega) (by rw [Nat.add_mul, Nat.one_mul] at hend; omega)
      (fun j hj => by
        have := hin (j + 1) (by omega)
        rw [Nat.add_mul, Nat.one_mul] at this
        omega)]
    rw [List.range'_succ]

/-- Arithmetic of the share size: `bins_per_thread` bins of stride
`thread_count` starting at `id` fit below `bin_count`, and no more. -/
theorem bins_per_thread_bounds (bc t id : Nat) (ht : 1 ≤ t) (hid : id < t) :
    bc ≤ id + bins_per_thread bc t id * t ∧
    ∀ j, j < bins_per_thread bc t id → id + j * t < bc := by
  have hdm := Nat.div_add_mod bc t
  have hmod := Nat.mod_lt bc (show 0 < t by omega)
  rw [Nat.mul_comm] at hdm
  unfold bins_per_thread
  by_cases hlt : id < bc % t
  · rw [if_pos hlt]
    refine ⟨by rw [Nat.add_mul, Nat.one_mul]; omega, fun j hj => ?_⟩
    have := Nat.mul_le_mul_right t (show j ≤ bc / t by omega)
    omega
  · rw [if_neg hlt]
    refine ⟨by omega, fun j hj => ?_⟩
    have := Nat.mul_le_mul_right t (show j + 1 ≤ bc / t by omega)
    rw [Nat.add_mul, Nat.one_mul] at this
    omega

/-- C12: for `bin_count > thread_count >= 1` and `id < thread_count`, the
striped loop visits, in this order, the bins
`id, id + thread_count, id + 2*thread_count, ...` below `bin_count` and no
other; their number is the value of `bins_per_thread`:
`bin_count / thread_count`, plus one exactly when
`id < bin_count mod thread_count`. -/
theorem striped_share_size (bin_count thread_count id : Nat)
    (hgt : bin_count > thread_count) (ht : 1 ≤ thread_count) (hid : id < thread_count) :
    ∃ ms, owned_bins bin_count thread_count id = .ok ms ∧
      ms = List.range' id (bins_per_thread bin_count thread_count id) thread_count ∧
      (∀ m, m ∈ ms ↔ m < bin_count ∧ ∃ j, m = id + j * thread_count) ∧
      ms.length = bins_per_thread bin_count thread_count id ∧
      bins_per_thread bin_count thread_count id =
        bin_count / thread_count + (if id < bin_count % thread_count then 1 else 0) := by
  obtain ⟨hend, hin⟩ := bins_per_thread_bounds bin_count thread_count id ht hid
  have hle : bins_per_thread bin_count thread_count id ≤ bin_count := by
    by_contra hc
    have h1 := hin bin_count (by omega)
    have h2 := Nat.mul_le_mul_left bin_count ht
    omega
  refine ⟨_, ?_, rfl, ?_, by simp, ?_⟩
  · unfold owned_bins
    rw [if_pos hgt]
    exact stripe_bins_eq_range bin_count thread_count _ _ id (by omega) hend hin
  · intro m
    rw [List.mem_range']
    constructor
    · rintro ⟨j, hj, rfl⟩
      rw [Nat.mul_comm]
      exact ⟨hin j hj, j, rfl⟩
    · rintro ⟨hm, j, rfl⟩
      refine ⟨j, ?_, by rw [Nat.mul_comm]⟩
      by_contra hc
      have := Nat.mul_le_mul_right thread_count
        (show bins_per_thread bin_count thread_count id ≤ j by omega)
      omega
  · unfold bins_per_thread
    by_cases h : id < bin_count % thread_count
    · rw [if_pos h, if_pos h]
    · rw [if_neg h, if_neg h, Nat.add_zero]

theorem striped_share_size_witness :
    ∃ ms, owned_bins 7 3 0 = .ok ms ∧
      ms = List.range' 0 (bins_per_thread 7 3 0) 3 ∧
      (∀ m, m ∈ ms ↔ m < 7 ∧ ∃ j, m = 0 + j * 3) ∧
      ms.length = bins_per_thread 7 3 0 ∧
      bins_per_thread 7 3 0 = 7 / 3 + (if 0 < 7 % 3 then 1 else 0) :=
  striped_share_size 7 3 0 (by decide) (by decide) (by decide)

/-! ## Index safety and termination of Which_bin (lines 280-294) -/

/-- Whatever the table holds, an index returned by the search loop lies in the
range `[bottom, top]` the loop was entered with. -/
theorem Which_bin_loop_range (x : ℚ) (bm : List ℚ) (mn : ℚ) :
    ∀ (fuel : Nat) (bottom top r : Int), 0 ≤ bottom →
      Which_bin_loop x bm mn fuel bottom top = .ok r → bottom ≤ r ∧ r ≤ top := by
  intro fuel
  induction fuel with
  | zero =>
    intro bottom top r _ h
    simp [Which_bin_loop] at h
  | succ fuel ih =>
    intro bottom top r h0 h
    rw [Which_bin_loop] at h
    by_cases hbt : bottom ≤ top
    · obtain ⟨hlo, hhi⟩ := tdiv_two_bounds h0 hbt
      rw [if_pos hbt] at h
      simp only at h
      split at h
      · cases h
      · split at h
        · cases h
        · split at h
          · have := ih _ _ _ (by omega) h
            omega
          · split at h
            · have := ih _ _ _ h0 h
              omega
            · cases h
              exact ⟨hlo, hhi⟩
    · rw [if_neg hbt] at h
      cases h

/-- On a table of at least `top + 1` entries the search loop never reads
outside the table and, given an iteration bound above the size of its range,
ends by returning an index of the range or by the fatal branch. -/
theorem Which_bin_loop_total (x : ℚ) (bm : List ℚ) (mn : ℚ) :
    ∀ (fuel : Nat) (bottom top : Int), 0 ≤ bottom → top < bm.length →
      (top + 1 - bottom).toNat < fuel →
      (∃ r : Int, Which_bin_loop x bm mn fuel bottom top = .ok r ∧ bottom ≤ r ∧ r ≤ top) ∨
      Which_bin_loop x bm mn fuel bottom top = .error .exit_failure := by
  intro fuel
  induction fuel with
  | zero => intro bottom top _ _ h; omega
  | succ fuel ih =>
    intro bottom top h0 htop hfuel
    by_cases hbt : bottom ≤ top
    · obtain ⟨hlo, hhi⟩ := tdiv_two_bounds h0 hbt
      obtain ⟨m, hm⟩ := Int.eq_ofNat_of_zero_le (le_trans h0 hlo)
      rw [hm] at hlo hhi
      have hmlen : m < bm.length := by omega
      have hmin : (if (m : Int) = 0 then (Except.ok mn : Except Fault ℚ)
          else rdI bm ((m : Int) - 1)) = .ok (lower_bound bm mn m) := by
        by_cases hz : m = 0
        · simp [hz, lower_bound]
        · have h1 : ((m : Int) - 1) = ((m - 1 : Nat) : Int) := by omega
          have h2 : ¬ ((m : Int) = 0) := by omega
          rw [if_neg h2, h1, rdI_ofNat (by omega)]
          simp [lower_bound, hz]
      rw [Which_bin_loop, if_pos hbt]
      simp only [hm, rdI_ofNat hmlen, hmin]
      by_cases hge : x ≥ bm.getD m 0
      · rw [if_pos hge]
        rcases ih ((m : Int) + 1) top (by omega) htop (by omega) with ⟨r, hr, h1, h2⟩ | hr
        · exact Or.inl ⟨r, hr, by omega, h2⟩
        · exact Or.inr hr
      · rw [if_neg hge]
        by_cases hlt : x < lower_bound bm mn m
        · rw [if_pos hlt]
          rcases ih bottom ((m : Int) - 1) h0 (by omega) (by omega) with ⟨r, hr, h1, h2⟩ | hr
          · exact Or.inl ⟨r, hr, h1, by omega⟩
          · exact Or.inr hr
        · rw [if_neg hlt]
          exact Or.inl ⟨m, rfl, hlo, hhi⟩
    · rw [Which_bin_loop, if_neg hbt]
      exact Or.inr rfl

theorem row_index_lt (bc t id b : Nat) (hid : id < t) (hb : b < bc) :
    id * bc + b < bc * t := by
  have := Nat.mul_le_mul_right bc (show id + 1 ≤ t from hid)
  rw [Nat.add_mul, Nat.one_mul, Nat.mul_comm t bc] at this
  omega

/-- C20: for `bin_count >= 1`, a table of `bin_count` entries with any
content and any measurement, `Which_bin` never reads the table at an index
outside `[0, bin_count)` (no access faults) and every index it returns lies in
`[0, bin_count)`; so for a worker `id < thread_count` the counter index
`id*bin_count + bin` lies in `[0, bin_count*thread_count)` and the read and the
write of `local_bins` at that index are inside the block. -/
theorem Which_bin_index_safety (x : ℚ) (bin_maxes : List ℚ) (bin_count : Nat) (min_meas : ℚ)
    (hb : 1 ≤ bin_count) (hlen : bin_maxes.length = bin_count) :
    Which_bin x bin_maxes bin_count min_meas ≠ .error .out_of_bounds ∧
    ∀ r : Int, Which_bin x bin_maxes bin_count min_meas = .ok r →
      0 ≤ r ∧ r < bin_count ∧
      ∀ id thread_count : Nat, id < thread_count →
        0 ≤ ((id * bin_count : Nat) : Int) + r ∧
        ((id * bin_count : Nat) : Int) + r < ((bin_count * thread_count : Nat) : Int) ∧
        ∀ local_bins : List Int, local_bins.length = bin_count * thread_count →
          ∃ c lb2, rdI local_bins (((id * bin_count : Nat) : Int) + r) = .ok c ∧
            wrI local_bins (((id * bin_count : Nat) : Int) + r) (c + 1) = .ok lb2 := by
  have htotal := Which_bin_loop_total x bin_maxes min_meas (bin_count + 1) 0
    ((bin_count : Int) - 1) (le_refl _) (by omega) (by omega)
  constructor
  · unfold Which_bin
    rcases htotal with ⟨r, hr, _, _⟩ | hr
    · rw [hr]; intro h; cases h
    · rw [hr]; intro h; cases h
  · intro r hr
    unfold Which_bin at hr
    obtain ⟨h1, h2⟩ := Which_bin_loop_range x bin_maxes min_meas _ _ _ r (le_refl _) hr
    refine ⟨h1, by omega, ?_⟩
    intro id thread_count hid
    obtain ⟨b, rfl⟩ := Int.eq_ofNat_of_zero_le h1
    have hidx := row_index_lt bin_count thread_count id b hid (by omega)
    have hj : ((id * bin_count : Nat) : Int) + (b : Int) = ((id * bin_count + b : Nat) : Int) := by
      push_cast; rfl
    refine ⟨by omega, by rw [hj]; exact_mod_cast hidx, ?_⟩
    intro local_bins hl
    rw [hj]
    exact ⟨_, _, rdI_getD 0 (by omega), wrI_ofNat _ (by omega)⟩

theorem Which_bin_index_safety_witness :
    Which_bin 0 [3, 1, 2] 3 0 ≠ .error .out_of_bounds ∧
    ∀ r : Int, Which_bin 0 [3, 1, 2] 3 0 = .ok r →
      0 ≤ r ∧ r < (3 : Nat) ∧
      ∀ id thread_count : Nat, id < thread_count →
        0 ≤ ((id * 3 : Nat) : Int) + r ∧
        ((id * 3 : Nat) : Int) + r < ((3 * thread_count : Nat) : Int) ∧
        ∀ local_bins : List Int, local_bins.length = 3 * thread_count →
          ∃ c lb2, rdI local_bins (((id * 3 : Nat) : Int) + r) = .ok c ∧
            wrI local_bins (((id * 3 : Nat) : Int) + r) (c + 1) = .ok lb2 :=
  Which_bin_index_safety 0 [3, 1, 2] 3 0 (by decide) rfl


/-- The counting loop computes the result of `Which_bin_loop`. -/
theorem Which_bin_loop_count_fst (x : ℚ) (bm : List ℚ) (mn : ℚ) :
    ∀ (fuel : Nat) (bottom top : Int),
      (Which_bin_loop_count x bm mn fuel bottom top).1 = Which_bin_loop x bm mn fuel bottom top := by
  intro fuel
  induction fuel with
  | zero => intro bottom top; rfl
  | succ fuel ih =>
    intro bottom top
    rw [Which_bin_loop_count, Which_bin_loop]
    by_cases hbt : bottom ≤ top
    · rw [if_pos hbt, if_pos hbt]
      simp only
      cases rdI bm (Int.tdiv (bottom + top) 2) with
      | error e => rfl
      | ok bin_max =>
        simp only
        cases (if Int.tdiv (bottom + top) 2 = 0 then (Except.ok mn : Except Fault ℚ)
            else rdI bm (Int.tdiv (bottom + top) 2 - 1)) with
        | error e => rfl
        | ok bin_min =>
          simp only
          by_cases hge : x ≥ bin_max
          · rw [if_pos hge, if_pos hge]
            exact ih _ _
          · rw [if_neg hge, if_neg hge]
            by_cases hlt : x < bin_min
            · rw [if_pos hlt, if_pos hlt]
              exact ih _ _
            · rw [if_neg hlt, if_neg hlt]
    · rw [if_neg hbt, if_neg hbt]

/-- Each iteration at least halves the number of candidate bins, so a range of
fewer than `2^k` bins allows at most `k` iterations. -/
theorem Which_bin_loop_count_le (x : ℚ) (bm : List ℚ) (mn : ℚ) :
    ∀ (k fuel : Nat) (bottom top : Int), 0 ≤ bottom → (top + 1 - bottom).toNat < 2 ^ k →
      (Which_bin_loop_count x bm mn fuel bottom top).2 ≤ k := by
  intro k
  induction k with
  | zero =>
    intro fuel bottom top _ hsize
    have hbt : ¬ bottom ≤ top := by
      simp only [pow_zero] at hsize
      omega
    cases fuel with
    | zero => simp [Which_bin_loop_count]
    | succ f => rw [Which_bin_loop_count, if_neg hbt]
  | succ k ih =>
    intro fuel bottom top h0 hsize
    cases fuel with
    | zero => simp [Which_bin_loop_count]
    | succ f =>
      rw [Which_bin_loop_count]
      by_cases hbt : bottom ≤ top
      · obtain ⟨hlo, hhi⟩ := tdiv_two_bounds h0 hbt
        have hmid : Int.tdiv (bottom + top) 2 = (bottom + top) / 2 :=
          Int.tdiv_eq_ediv (by omega) (by omega)
        rw [pow_succ] at hsize
        rw [if_pos hbt]
        simp only
        cases rdI bm (Int.tdiv (bottom + top) 2) with
        | error e => simp
        | ok bin_max =>
          simp only
          cases (if Int.tdiv (bottom + top) 2 = 0 then (Except.ok mn : Except Fault ℚ)
              else rdI bm (Int.tdiv (bottom + top) 2 - 1)) with
          | error e => simp
          | ok bin_min =>
            simp only
            by_cases hge : x ≥ bin_max
            · rw [if_pos hge]
              have := ih f (Int.tdiv (bottom + top) 2 + 1) top (by omega)
                (by rw [hmid]; omega)
              simp only
              omega
            · rw [if_neg hge]
              by_cases hlt : x < bin_min
              · rw [if_pos hlt]
                have := ih f bottom (Int.tdiv (bottom + top) 2 - 1) h0
                  (by rw [hmid]; omega)
                simp only
                omega
              · rw [if_neg hlt]
                simp
      · rw [if_neg hbt]
        simp

/-- Whatever the table holds, an iteration bound above the size of the range
is never exhausted. -/
theorem Which_bin_loop_terminates (x : ℚ) (bm : List ℚ) (mn : ℚ) :
    ∀ (fuel : Nat) (bottom top : Int), 0 ≤ bottom → (top + 1 - bottom).toNat < fuel →
      Which_bin_loop x bm mn fuel bottom top ≠ .error .out_of_fuel := by
  intro fuel
  induction fuel with
  | zero => intro bottom top _ h; omega
  | succ fuel ih =>
    intro bottom top h0 hfuel h
    rw [Which_bin_loop] at h
    by_cases hbt : bottom ≤ top
    · obtain ⟨hlo, hhi⟩ := tdiv_two_bounds h0 hbt
      rw [if_pos hbt] at h
      simp only at h
      split at h
      · rename_i e hrd
        cases h
        unfold rdI at hrd
        split at hrd
        · unfold rd at hrd
          split at hrd <;> cases hrd
        · cases hrd
      · split at h
        · rename_i e hrd
          cases h
          split at hrd
          · cases hrd
          · unfold rdI at hrd
            split at hrd
            · unfold rd at hrd
              split at hrd <;> cases hrd
            · cases hrd
        · split at h
          · exact ih _ _ (by omega) (by omega) h
          · split at h
            · exact ih _ _ h0 (by omega) h
            · cases h
    · rw [if_neg hbt] at h
      cases h


/-- C16: for `bin_count >= 1`, any table (sorted or not, of any length) and
any measurement: an iteration of the loop of `Which_bin` that does not return
leaves a strictly smaller `top - bottom`; the loop body is entered at most
`floor(log2(bin_count)) + 1` times; `Which_bin` terminates (the iteration bound
of the model is never exhausted), and on a table of `bin_count` entries it
ends by returning an index or by the fatal branch. -/
theorem Which_bin_log_iterations (x : ℚ) (bin_maxes : List ℚ) (bin_count : Nat) (min_meas : ℚ)
    (hb : 1 ≤ bin_count) :
    (∀ bottom top : Int, 0 ≤ bottom → bottom ≤ top →
      top - (Int.tdiv (bottom + top) 2 + 1) < top - bottom ∧
      (Int.tdiv (bottom + top) 2 - 1) - bottom < top - bottom) ∧
    (Which_bin_loop_count x bin_maxes min_meas (bin_count + 1) 0 ((bin_count : Int) - 1)).1 =
      Which_bin x bin_maxes bin_count min_meas ∧
    (Which_bin_loop_count x bin_maxes min_meas (bin_count + 1) 0 ((bin_count : Int) - 1)).2 ≤
      Nat.log2 bin_count + 1 ∧
    Which_bin x bin_maxes bin_count min_meas ≠ .error .out_of_fuel ∧
    (bin_maxes.length = bin_count →
      (∃ r : Int, Which_bin x bin_maxes bin_count min_meas = .ok r) ∨
      Which_bin x bin_maxes bin_count min_meas = .error .exit_failure) := by
  refine ⟨?_, Which_bin_loop_count_fst x bin_maxes min_meas _ _ _, ?_, ?_, ?_⟩
  · intro bottom top h0 hbt
    obtain ⟨hlo, hhi⟩ := tdiv_two_bounds h0 hbt
    constructor <;> omega
  · apply Which_bin_loop_count_le x bin_maxes min_meas _ _ _ _ (le_refl _)
    have h := @Nat.lt_log2_self bin_count
    have : ((bin_count : Int) - 1 + 1 - 0).toNat = bin_count := by omega
    rw [this]
    exact h
  · exact Which_bin_loop_terminates x bin_maxes min_meas _ _ _ (le_refl _) (by omega)
  · intro hlen
    rcases Which_bin_loop_total x bin_maxes min_meas (bin_count + 1) 0
      ((bin_count : Int) - 1) (le_refl _) (by omega) (by omega) with ⟨r, hr, _, _⟩ | hr
    · exact Or.inl ⟨r, hr⟩
    · exact Or.inr hr

theorem Which_bin_log_iterations_witness :
    (∀ bottom top : Int, 0 ≤ bottom → bottom ≤ top →
      top - (Int.tdiv (bottom + top) 2 + 1) < top - bottom ∧
      (Int.tdiv (bottom + top) 2 - 1) - bottom < top - bottom) ∧
    (Which_bin_loop_count (3/10) [1/4, 1/2, 3/4, 1] 0 (4 + 1) 0 (((4 : Nat) : Int) - 1)).1 =
      Which_bin (3/10) [1/4, 1/2, 3/4, 1] 4 0 ∧
    (Which_bin_loop_count (3/10) [1/4, 1/2, 3/4, 1] 0 (4 + 1) 0 (((4 : Nat) : Int) - 1)).2 ≤
      Nat.log2 4 + 1 ∧
    Which_bin (3/10) [1/4, 1/2, 3/4, 1] 4 0 ≠ .error .out_of_fuel ∧
    (([1/4, 1/2, 3/4, 1] : List ℚ).length = 4 →
      (∃ r : Int, Which_bin (3/10) [1/4, 1/2, 3/4, 1] 4 0 = .ok r) ∨
      Which_bin (3/10) [1/4, 1/2, 3/4, 1] 4 0 = .error .exit_failure) :=
  Which_bin_log_iterations (3/10) [1/4, 1/2, 3/4, 1] 4 0 (by decide)

/-! ## Order of the two tests in Which_bin (lines 288-291) -/

theorem rdI_ok_index {a : List ℚ} {i : Int} {v : ℚ} (h : rdI a i = .ok v) :
    ∃ m : Nat, i = (m : Int) ∧ m < a.length ∧ v = a.getD m 0 := by
  unfold rdI at h
  by_cases h0 : 0 ≤ i
  · rw [if_pos h0] at h
    obtain ⟨m, rfl⟩ := Int.eq_ofNat_of_zero_le h0
    have hlt : m < a.length := by
      by_contra hc
      simp only [Int.toNat_ofNat, rd] at h
      rw [List.getElem?_eq_none (by omega)] at h
      cases h
    refine ⟨m, rfl, hlt, ?_⟩
    simp only [Int.toNat_ofNat] at h
    rw [rd_of_lt hlt] at h
    cases h
    rfl
  · rw [if_neg h0] at h
    cases h

/-- On a weakly increasing table with `min_meas <= bin_maxes[0]`, the lower
bound read at `mid` is at most the upper bound read at `mid`, so
`data < bin_min` and `data >= bin_max` cannot both hold. -/
theorem bin_min_le_bin_max (bm : List ℚ) (mn : ℚ) (hmono : MonoTable bm)
    (hmin : mn ≤ upper_bound bm 0) (mid : Int) (bin_max bin_min : ℚ)
    (h1 : rdI bm mid = .ok bin_max)
    (h2 : (if mid = 0 then (Except.ok mn : Except Fault ℚ) else rdI bm (mid - 1)) =
      .ok bin_min) : bin_min ≤ bin_max := by
  obtain ⟨m, rfl, hm, rfl⟩ := rdI_ok_index h1
  by_cases hz : (m : Int) = 0
  · rw [if_pos hz] at h2
    cases h2
    have : m = 0 := by omega
    subst this
    exact hmin
  · rw [if_neg hz] at h2
    obtain ⟨p, hp, _, rfl⟩ := rdI_ok_index h2
    have hpm : p = m - 1 := by omega
    subst hpm
    exact hmono (m - 1) m (by omega) hm

theorem Which_bin_swapped_loop_eq (x : ℚ) (bm : List ℚ) (mn : ℚ) (hmono : MonoTable bm)
    (hmin : mn ≤ upper_bound bm 0) :
    ∀ (fuel : Nat) (bottom top : Int),
      Which_bin_swapped_loop x bm mn fuel bottom top = Which_bin_loop x bm mn fuel bottom top := by
  intro fuel
  induction fuel with
  | zero => intro bottom top; rfl
  | succ fuel ih =>
    intro bottom top
    rw [Which_bin_swapped_loop, Which_bin_loop]
    by_cases hbt : bottom ≤ top
    · rw [if_pos hbt, if_pos hbt]
      simp only
      cases h1 : rdI bm (Int.tdiv (bottom + top) 2) with
      | error e => rfl
      | ok bin_max =>
        simp only
        cases h2 : (if Int.tdiv (bottom + top) 2 = 0 then (Except.ok mn : Except Fault ℚ)
            else rdI bm (Int.tdiv (bottom + top) 2 - 1)) with
        | error e => rfl
        | ok bin_min =>
          simp only
          have hle := bin_min_le_bin_max bm mn hmono hmin _ bin_max bin_min h1 h2
          by_cases hlt : x < bin_min
          · have hnge : ¬ x ≥ bin_max := not_le.mpr (lt_of_lt_of_le hlt hle)
            rw [if_pos hlt, if_neg hnge, if_pos hlt]
            exact ih _ _
          · rw [if_neg hlt]
            by_cases hge : x ≥ bin_max
            · rw [if_pos hge, if_pos hge]
              exact ih _ _
            · rw [if_neg hge, if_neg hge, if_neg hlt]
    · rw [if_neg hbt, if_neg hbt]

/-- C18: for `bin_count >= 1`, a weakly increasing table with
`min_meas <= bin_maxes[0]` and any measurement, the variant of `Which_bin`
that tests `data < bin_min` before `data >= bin_max` has the same outcome as
`Which_bin` (the same index, or the same failure), and at the `mid` of any
iteration the two tests do not both hold. -/
theorem Which_bin_branch_order (x : ℚ) (bin_maxes : List ℚ) (bin_count : Nat) (min_meas : ℚ)
    (_hb : 1 ≤ bin_count) (_hlen : bin_maxes.length = bin_count)
    (hsorted : bin_maxes.Sorted (· ≤ ·)) (hmin : min_meas ≤ upper_bound bin_maxes 0) :
    Which_bin_swapped x bin_maxes bin_count min_meas = Which_bin x bin_maxes bin_count min_meas ∧
    ∀ mid : Nat, mid < bin_count →
      ¬ (x < lower_bound bin_maxes min_meas mid ∧ x ≥ upper_bound bin_maxes mid) := by
  have hmono := MonoTable_of_sorted_le hsorted
  refine ⟨Which_bin_swapped_loop_eq x bin_maxes min_meas hmono hmin _ _ _, ?_⟩
  rintro mid hmid ⟨h1, h2⟩
  have hle : lower_bound bin_maxes min_meas mid ≤ upper_bound bin_maxes mid := by
    unfold lower_bound
    by_cases hz : mid = 0
    · rw [if_pos hz, hz]; exact hmin
    · rw [if_neg hz]
      exact hmono (mid - 1) mid (by omega) (by omega)
  exact absurd (lt_of_lt_of_le h1 (le_trans hle h2)) (lt_irrefl _)

theorem Which_bin_branch_order_witness :
    Which_bin_swapped (1/4) [1/4, 1/2, 3/4, 1] 4 0 = Which_bin (1/4) [1/4, 1/2, 3/4, 1] 4 0 ∧
    ∀ mid : Nat, mid < 4 →
      ¬ ((1/4 : ℚ) < lower_bound [1/4, 1/2, 3/4, 1] 0 mid ∧
        (1/4 : ℚ) ≥ upper_bound [1/4, 1/2, 3/4, 1] mid) :=
  Which_bin_branch_order (1/4) [1/4, 1/2, 3/4, 1] 4 0 (by decide) rfl
    (by simp [List.Sorted]; norm_num) (by norm_num [upper_bound])

/-! ## One ownership rule for both branches (lines 391-431) -/

/-- With at most as many bins as workers, the striped loop of worker
`id` visits bin `id` when `id < bin_count` and nothing else:
what the else branch does. -/
theorem stripe_bins_few_bins (bc t id : Nat) (hle : bc ≤ t) :
    stripe_bins bc t (bc + 1) id = owned_bins bc t id := by
  unfold owned_bins
  rw [if_neg (by omega)]
  by_cases hlt : id < bc
  · rw [if_pos hlt]
    obtain ⟨f, hf⟩ : ∃ f, bc = f + 1 := ⟨bc - 1, by omega⟩
    rw [hf, stripe_bins, if_pos (by omega), stripe_bins, if_neg (by omega)]
  · rw [if_neg hlt, stripe_bins, if_neg hlt]

/-- C19: for `bin_count >= 1`, `thread_count >= 1` and `id < thread_count`,
the bins worker `id` writes are the bins `m < bin_count` with
`m mod thread_count = id`, each written once; and when
`bin_count <= thread_count` the else branch writes the bins the striped loop
would write for the same `id` and leaves the same state. -/
theorem one_ownership_rule (g : Globals) (id : Nat)
    (_hb : 1 ≤ g.bin_count) (ht : 1 ≤ g.thread_count) (hid : id < g.thread_count) :
    (∃ ms, owned_bins g.bin_count g.thread_count id = .ok ms ∧ ms.Nodup ∧
      ∀ m, m ∈ ms ↔ m < g.bin_count ∧ m % g.thread_count = id) ∧
    (g.bin_count ≤ g.thread_count →
      stripe_bins g.bin_count g.thread_count (g.bin_count + 1) id =
        owned_bins g.bin_count g.thread_count id ∧
      consolidation_striped id g = consolidation_phase id g) := by
  constructor
  · obtain ⟨ms, hms, hcount⟩ := owned_bins_count g.bin_count g.thread_count id ht hid
    refine ⟨ms, hms, ?_, ?_⟩
    · rw [List.nodup_iff_count_le_one]
      intro m
      rw [hcount m]
      split <;> omega
    · intro m
      rw [← List.count_pos_iff, hcount m]
      constructor
      · intro h
        by_cases hc : m < g.bin_count ∧ id = m % g.thread_count
        · exact ⟨hc.1, hc.2.symm⟩
        · rw [if_neg hc] at h
          omega
      · rintro ⟨h1, h2⟩
        rw [if_pos ⟨h1, h2.symm⟩]
        omega
  · intro hle
    have h := stripe_bins_few_bins g.bin_count g.thread_count id hle
    refine ⟨h, ?_⟩
    unfold consolidation_striped consolidation_phase
    rw [h]

theorem one_ownership_rule_witness :
    (∃ ms, owned_bins sample_globals_5_3.bin_count sample_globals_5_3.thread_count 1 = .ok ms ∧
      ms.Nodup ∧
      ∀ m, m ∈ ms ↔ m < sample_globals_5_3.bin_count ∧
        m % sample_globals_5_3.thread_count = 1) ∧
    (sample_globals_5_3.bin_count ≤ sample_globals_5_3.thread_count →
      stripe_bins sample_globals_5_3.bin_count sample_globals_5_3.thread_count
          (sample_globals_5_3.bin_count + 1) 1 =
        owned_bins sample_globals_5_3.bin_count sample_globals_5_3.thread_count 1 ∧
      consolidation_striped 1 sample_globals_5_3 = consolidation_phase 1 sample_globals_5_3) :=
  one_ownership_rule sample_globals_5_3 1 (by decide) (by decide) (by decide)

/-! ## Slices stay in bounds (lines 347-370) -/

/-- C15: for every `data_count`, `thread_count >= 1` and `id < thread_count`,
the slice satisfies `0 <= start_n <= stop_n <= data_count`, so every index of
the slice is a valid index of a data array of `data_count` entries; and when
`thread_count > data_count` every worker but the last has the empty slice
`start_n = stop_n = 0` while the slice of the last worker is
`[0, data_count)`. -/
theorem slices_in_bounds (data_count thread_count id : Nat) (ht : 1 ≤ thread_count)
    (hid : id < thread_count) :
    0 ≤ start_n data_count thread_count id ∧
    start_n data_count thread_count id ≤ stop_n data_count thread_count id ∧
    stop_n data_count thread_count id ≤ data_count ∧
    (∀ (data : List ℚ) (k : Nat), data.length = data_count →
      start_n data_count thread_count id ≤ k → k < stop_n data_count thread_count id →
      ∃ x, rd data k = .ok x) ∧
    (thread_count > data_count →
      (id + 1 < thread_count →
        start_n data_count thread_count id = 0 ∧ stop_n data_count thread_count id = 0) ∧
      (id + 1 = thread_count →
        start_n data_count thread_count id = 0 ∧
        stop_n data_count thread_count id = data_count)) := by
  have hstop := stop_n_le data_count thread_count id hid
  refine ⟨Nat.zero_le _, start_le_stop _ _ _, hstop, ?_, ?_⟩
  · intro data k hlen _ hk
    exact ⟨_, rd_getD 0 (by omega)⟩
  · intro hgt
    have hdiv : data_count / thread_count = 0 := Nat.div_eq_of_lt hgt
    have hstart : start_n data_count thread_count id = 0 := by
      unfold start_n
      rw [hdiv, Nat.zero_mul]
    refine ⟨fun hlt => ⟨hstart, ?_⟩, fun heq => ⟨hstart, ?_⟩⟩
    · unfold stop_n
      rw [hstart, num_elements_inner _ _ _ hlt, hdiv]
    · have : id = thread_count - 1 := by omega
      rw [this]
      exact stop_n_last _ _ ht

theorem slices_in_bounds_witness :
    0 ≤ start_n 2 5 4 ∧
    start_n 2 5 4 ≤ stop_n 2 5 4 ∧
    stop_n 2 5 4 ≤ 2 ∧
    (∀ (data : List ℚ) (k : Nat), data.length = 2 →
      start_n 2 5 4 ≤ k → k < stop_n 2 5 4 → ∃ x, rd data k = .ok x) ∧
    (5 > 2 →
      (4 + 1 < 5 → start_n 2 5 4 = 0 ∧ stop_n 2 5 4 = 0) ∧
      (4 + 1 = 5 → start_n 2 5 4 = 0 ∧ stop_n 2 5 4 = 2)) :=
  slices_in_bounds 2 5 4 (by decide) (by decide)

/-! ## Row ownership in the local phase (lines 362-370) -/

theorem rdI_ok_lt {a : List Int} {i : Nat} {v : Int} (h : rdI a (i : Int) = .ok v) :
    i < a.length := by
  by_contra hc
  simp only [rdI, Int.toNat_ofNat, rd] at h
  rw [List.getElem?_eq_none (by omega)] at h
  simp at h

/-- An iteration of the local loop that completes has written one entry of
`local_bins`, in the row of the worker, and nothing else. -/
theorem local_body_frame (id k : Nat) (g g2 : Globals) (h : local_body id k g = .ok g2) :
    ∃ (b : Nat) (v : Int), b < g.bin_count ∧ id * g.bin_count + b < g.local_bins.length ∧
      g2 = { g with local_bins := g.local_bins.set (id * g.bin_count + b) v } := by
  unfold local_body at h
  cases hx : rd g.data k with
  | error e => rw [hx, error_bind] at h; cases h
  | ok x =>
    rw [hx, ok_bind] at h
    cases hw : Which_bin x g.bin_maxes g.bin_count g.min_meas with
    | error e => rw [hw, error_bind] at h; cases h
    | ok r =>
      rw [hw, ok_bind] at h
      have hrange := Which_bin_loop_range x g.bin_maxes g.min_meas _ _ _ r (le_refl _) hw
      obtain ⟨b, rfl⟩ := Int.eq_ofNat_of_zero_le hrange.1
      have hb : b < g.bin_count := by omega
      have hj : ((id * g.bin_count : Nat) : Int) + (b : Int) =
          ((id * g.bin_count + b : Nat) : Int) := by
        push_cast; rfl
      simp only [hj] at h
      cases hc : rdI g.local_bins ((id * g.bin_count + b : Nat) : Int) with
      | error e => rw [hc, error_bind] at h; cases h
      | ok c =>
        have hidx := rdI_ok_lt hc
        rw [hc, ok_bind, wrI_ofNat _ hidx, ok_bind] at h
        refine ⟨b, c + 1, hb, hidx, ?_⟩
        cases h
        rfl

/-- Any number of completed iterations of the local loop of worker `id`, from
any data index, changes nothing but entries of row `id` of `local_bins`. -/
theorem local_loop_frame (id : Nat) :
    ∀ (n i : Nat) (g g2 : Globals), for_up (local_body id) n i g = .ok g2 →
      only_local_bins_changed g g2 ∧ g2.local_bins.length = g.local_bins.length ∧
      ∀ j, ¬ (id * g.bin_count ≤ j ∧ j < (id + 1) * g.bin_count) →
        g2.local_bins[j]? = g.local_bins[j]? := by
  intro n
  induction n with
  | zero =>
    intro i g g2 h
    simp only [for_up] at h
    cases h
    exact ⟨rfl, rfl, fun _ _ => rfl⟩
  | succ n ih =>
    intro i g g2 h
    rw [for_up] at h
    cases hb : local_body id i g with
    | error e => rw [hb] at h; cases h
    | ok g1 =>
      rw [hb] at h
      obtain ⟨b, v, hbc, hidx, hg1⟩ := local_body_frame id i g g1 hb
      obtain ⟨hf2, hl2, hv2⟩ := ih (i + 1) g1 g2 h
      have hf1 : only_local_bins_changed g g1 := by
        unfold only_local_bins_changed
        rw [hg1]
      have hbc1 : g1.bin_count = g.bin_count := by rw [hg1]
      have hlb1 : g1.local_bins = g.local_bins.set (id * g.bin_count + b) v := by rw [hg1]
      refine ⟨only_local_bins_changed_trans hf1 hf2, by rw [hl2, hlb1, List.length_set], ?_⟩
      intro j hj
      rw [hv2 j (by rw [hbc1]; exact hj), hlb1, List.getElem?_set, if_neg]
      intro hjb
      apply hj
      rw [Nat.add_mul, Nat.one_mul]
      omega

/-- C14: for `bin_count >= 1`, `thread_count >= 1` and `id < thread_count`, a
local accumulation phase of worker `id` (and every prefix of its loop) writes
only entries `local_bins[j]` with `id*bin_count <= j < (id+1)*bin_count`: every
other entry of the worker-local matrix, `bin_counts`, `bin_maxes`, the data and
every other global are as before; and for a sound table and blocks of the
allocated sizes the phase does complete. -/
theorem local_phase_row_ownership (g : Globals) (id : Nat)
    (_hb : 1 ≤ g.bin_count) (_ht : 1 ≤ g.thread_count) (hid : id < g.thread_count) :
    (∀ (n i : Nat) (g2 : Globals), for_up (local_body id) n i g = .ok g2 →
      only_local_bins_changed g g2 ∧ g2.local_bins.length = g.local_bins.length ∧
      ∀ j, ¬ (id * g.bin_count ≤ j ∧ j < (id + 1) * g.bin_count) →
        g2.local_bins[j]? = g.local_bins[j]?) ∧
    (∀ g2 : Globals, local_phase id g = .ok g2 →
      g2.bin_counts = g.bin_counts ∧ g2.bin_maxes = g.bin_maxes ∧ g2.data = g.data ∧
      only_local_bins_changed g g2 ∧ g2.local_bins.length = g.local_bins.length ∧
      ∀ j, ¬ (id * g.bin_count ≤ j ∧ j < (id + 1) * g.bin_count) →
        g2.local_bins[j]? = g.local_bins[j]?) ∧
    (table_ok g → g.data.length = g.data_count →
      g.local_bins.length = g.bin_count * g.thread_count →
      ∃ g2, local_phase id g = .ok g2) := by
  refine ⟨fun n i g2 h => local_loop_frame id n i g g2 h, ?_, ?_⟩
  · intro g2 h
    obtain ⟨hf, hl, hv⟩ := local_loop_frame id _ _ g g2 h
    have hg2 : g2 = { g with local_bins := g2.local_bins } := hf
    refine ⟨by rw [hg2], by rw [hg2], by rw [hg2], hf, hl, hv⟩
  · intro htable hdata hlocal
    obtain ⟨g2, h, _⟩ := local_phase_ok id g htable hid hdata hlocal
    exact ⟨g2, h⟩

theorem local_phase_row_ownership_witness :
    (∀ (n i : Nat) (g2 : Globals), for_up (local_body 1) n i sample_globals_2_2 = .ok g2 →
      only_local_bins_changed sample_globals_2_2 g2 ∧
      g2.local_bins.length = sample_globals_2_2.local_bins.length ∧
      ∀ j, ¬ (1 * sample_globals_2_2.bin_count ≤ j ∧
          j < (1 + 1) * sample_globals_2_2.bin_count) →
        g2.local_bins[j]? = sample_globals_2_2.local_bins[j]?) ∧
    (∀ g2 : Globals, local_phase 1 sample_globals_2_2 = .ok g2 →
      g2.bin_counts = sample_globals_2_2.bin_counts ∧
      g2.bin_maxes = sample_globals_2_2.bin_maxes ∧ g2.data = sample_globals_2_2.data ∧
      only_local_bins_changed sample_globals_2_2 g2 ∧
      g2.local_bins.length = sample_globals_2_2.local_bins.length ∧
      ∀ j, ¬ (1 * sample_globals_2_2.bin_count ≤ j ∧
          j < (1 + 1) * sample_globals_2_2.bin_count) →
        g2.local_bins[j]? = sample_globals_2_2.local_bins[j]?) ∧
    (table_ok sample_globals_2_2 →
      sample_globals_2_2.data.length = sample_globals_2_2.data_count →
      sample_globals_2_2.local_bins.length =
        sample_globals_2_2.bin_count * sample_globals_2_2.thread_count →
      ∃ g2, local_phase 1 sample_globals_2_2 = .ok g2) :=
  local_phase_row_ownership sample_globals_2_2 1 (by decide) (by decide) (by decide)

/-! ## Postcondition of the local phase (lines 362-370) -/

theorem slice_hits_succ (g : Globals) (lo n m : Nat) :
    slice_hits g lo (n + 1) m =
      (if lands_in g lo m = true then 1 else 0) + slice_hits g (lo + 1) n m := by
  unfold slice_hits
  rw [List.range'_succ, List.filter_cons]
  by_cases h : lands_in g lo m = true
  · rw [if_pos h, if_pos h, List.length_cons]
    omega
  · rw [if_neg h, if_neg h]
    omega

theorem lands_in_iff (g : Globals) (k m b : Nat)
    (h : Which_bin (g.data.getD k 0) g.bin_maxes g.bin_count g.min_meas = .ok (b : Int)) :
    lands_in g k m = true ↔ m = b := by
  unfold lands_in
  rw [h]
  simp only [decide_eq_true_eq]
  constructor
  · intro hbm; omega
  · intro hbm; omega

theorem slice_hits_congr {g g1 : Globals} (h : only_local_bins_changed g g1) (lo n m : Nat) :
    slice_hits g1 lo n m = slice_hits g lo n m := by
  unfold only_local_bins_changed at h
  rw [h]
  rfl

/-- The local loop over the data indices `[i, i + n)` when `Which_bin` returns
for each of them: the counter of bin `m` in the row of worker `id` grows by the
number of these indices `k` with `Which_bin(data[k]) == m`. -/
theorem local_loop_hits (id : Nat) :
    ∀ (n i : Nat) (g : Globals),
      (∀ k, i ≤ k → k < i + n → k < g.data.length ∧ ∃ b : Nat, b < g.bin_count ∧
        Which_bin (g.data.getD k 0) g.bin_maxes g.bin_count g.min_meas = .ok (b : Int)) →
      (id + 1) * g.bin_count ≤ g.local_bins.length →
      ∃ g2, for_up (local_body id) n i g = .ok g2 ∧ only_local_bins_changed g g2 ∧
        ∀ r m, m < g.bin_count →
          g2.local_bins.getD (r * g.bin_count + m) 0 =
            g.local_bins.getD (r * g.bin_count + m) 0 +
              (if r = id then (slice_hits g i n m : Int) else 0) := by
  intro n
  induction n with
  | zero =>
    intro i g _ _
    refine ⟨g, rfl, rfl, fun r m _ => ?_⟩
    simp [slice_hits]
  | succ n ih =>
    intro i g hok hrow
    obtain ⟨hk, b, hb, hbin⟩ := hok i (le_refl _) (by omega)
    have hidx : id * g.bin_count + b < g.local_bins.length := by
      rw [Nat.add_mul, Nat.one_mul] at hrow
      omega
    have hbody := local_body_ok id i g b hk hbin hidx
    let v := g.local_bins.getD (id * g.bin_count + b) 0 + 1
    let g1 : Globals := { g with local_bins := g.local_bins.set (id * g.bin_count + b) v }
    have hframe1 : only_local_bins_changed g g1 := by
      unfold only_local_bins_changed; rfl
    have hlen1 : g1.local_bins.length = g.local_bins.length := by
      show (g.local_bins.set (id * g.bin_count + b) v).length = _
      simp
    obtain ⟨g2, hrun, hframe2, hval⟩ := ih (i + 1) g1
      (fun k h1 h2 => hok k (by omega) (by omega))
      (by rw [hlen1]; exact hrow)
    refine ⟨g2, ?_, only_local_bins_changed_trans hframe1 hframe2, ?_⟩
    · rw [for_up, hbody]
      exact hrun
    · intro r m hm
      have h2 := hval r m hm
      have h1 : g1.local_bins.getD (r * g.bin_count + m) 0 =
          if id * g.bin_count + b = r * g.bin_count + m then v
          else g.local_bins.getD (r * g.bin_count + m) 0 :=
        getD_set_int g.local_bins _ _ v hidx
      have hpop := slice_hits_succ g i n m
      have hiff := row_col_inj g.bin_count id r b m hb hm
      have hin := lands_in_iff g i m b hbin
      rw [slice_hits_congr hframe1] at h2
      change g2.local_bins.getD (r * g.bin_count + m) 0 =
        g1.local_bins.getD (r * g.bin_count + m) 0 +
          (if r = id then (slice_hits g (i + 1) n m : Int) else 0) at h2
      rw [h2, h1, hpop]
      by_cases hr : r = id
      · subst hr
        by_cases hmb : m = b
        · subst hmb
          rw [if_pos rfl, if_pos rfl, if_pos rfl, if_pos (hin.mpr rfl)]
          show g.local_bins.getD (r * g.bin_count + m) 0 + 1 + _ = _
          push_cast
          ring
        · rw [if_neg (fun h => hmb (hiff.mp h).2.symm), if_pos rfl, if_pos rfl,
            if_neg (fun h => hmb (hin.mp h))]
          push_cast
          ring
      · rw [if_neg (fun h => hr (hiff.mp h).1.symm), if_neg hr, if_neg hr]

/-- C13: for a worker `id < thread_count` on a weakly increasing table of
`bin_count >= 1` thresholds that ends at `max_meas`, whose slice
`[start_n, stop_n)` holds only measurements in `[min_meas, max_meas)`: the
local phase completes, and after it `local_bins[id*bin_count + m]` is, for
every bin `m`, its value before the phase plus the number of indices `k` of
the slice with `Which_bin(data[k]) == m`. -/
theorem local_phase_postcondition (g : Globals) (id : Nat)
    (hid : id < g.thread_count) (hb : 1 ≤ g.bin_count)
    (hlen : g.bin_maxes.length = g.bin_count)
    (hsorted : g.bin_maxes.Sorted (· ≤ ·))
    (hlast : upper_bound g.bin_maxes (g.bin_count - 1) = g.max_meas)
    (hdata : g.data.length = g.data_count)
    (hlocal : g.local_bins.length = g.bin_count * g.thread_count)
    (hslice : ∀ k, start_n g.data_count g.thread_count id ≤ k →
      k < stop_n g.data_count g.thread_count id →
      g.min_meas ≤ g.data.getD k 0 ∧ g.data.getD k 0 < g.max_meas) :
    ∃ g2, local_phase id g = .ok g2 ∧
      ∀ m, m < g.bin_count →
        g2.local_bins.getD (id * g.bin_count + m) 0 =
          g.local_bins.getD (id * g.bin_count + m) 0 +
            (slice_hits g (start_n g.data_count g.thread_count id)
              (stop_n g.data_count g.thread_count id -
                start_n g.data_count g.thread_count id) m : Int) := by
  have hmono := MonoTable_of_sorted_le hsorted
  have hle := start_le_stop g.data_count g.thread_count id
  have hstop := stop_n_le g.data_count g.thread_count id hid
  have hrow : (id + 1) * g.bin_count ≤ g.local_bins.length := by
    rw [hlocal, Nat.mul_comm g.bin_count]
    exact Nat.mul_le_mul_right _ hid
  obtain ⟨g2, hrun, _, hval⟩ := local_loop_hits id
    (stop_n g.data_count g.thread_count id - start_n g.data_count g.thread_count id)
    (start_n g.data_count g.thread_count id) g
    (fun k h1 h2 => by
      refine ⟨by omega, ?_⟩
      obtain ⟨hlo, hhi⟩ := hslice k h1 (by omega)
      rw [← hlast] at hhi
      obtain ⟨a, ha, hina⟩ := exists_in_bin g.bin_maxes g.bin_count hb hlo hhi
      rcases Which_bin_spec (g.data.getD k 0) g.bin_maxes g.bin_count g.min_meas hlen hmono
        with ⟨i, hr, hi, _⟩ | ⟨_, hno⟩
      · exact ⟨i, hi, hr⟩
      · exact absurd hina (hno a ha))
    hrow
  refine ⟨g2, hrun, fun m hm => ?_⟩
  rw [hval id m hm, if_pos rfl]

theorem local_phase_postcondition_witness :
    ∃ g2, local_phase 1 sample_globals_2_2 = .ok g2 ∧
      ∀ m, m < sample_globals_2_2.bin_count →
        g2.local_bins.getD (1 * sample_globals_2_2.bin_count + m) 0 =
          sample_globals_2_2.local_bins.getD (1 * sample_globals_2_2.bin_count + m) 0 +
            (slice_hits sample_globals_2_2
              (start_n sample_globals_2_2.data_count sample_globals_2_2.thread_count 1)
              (stop_n sample_globals_2_2.data_count sample_globals_2_2.thread_count 1 -
                start_n sample_globals_2_2.data_count sample_globals_2_2.thread_count 1)
              m : Int) :=
  local_phase_postcondition sample_globals_2_2 1 (by decide) (by decide) rfl
    (by simp [sample_globals_2_2, List.Sorted]; norm_num)
    (by norm_num [sample_globals_2_2, upper_bound]) rfl rfl
    (by
      intro k h1 h2
      have hs : start_n sample_globals_2_2.data_count sample_globals_2_2.thread_count 1 = 2 := by
        decide
      have he : stop_n sample_globals_2_2.data_count sample_globals_2_2.thread_count 1 = 4 := by
        decide
      rw [hs] at h1
      rw [he] at h2
      have hk : k = 2 ∨ k = 3 := by omega
      rcases hk with rfl | rfl <;> norm_num [sample_globals_2_2])

/-! ## The parallel run against the single-threaded loop (lines 109-116) -/

theorem single_threaded_body_ok (g : Globals) (k b : Nat) (counts : List Int)
    (hk : k < g.data.length)
    (hbin : Which_bin (g.data.getD k 0) g.bin_maxes g.bin_count g.min_meas = .ok (b : Int))
    (hidx : b < counts.length) :
    single_threaded_body g.data g.bin_maxes g.bin_count g.min_meas k counts =
      .ok (counts.set b (counts.getD b 0 + 1)) := by
  unfold single_threaded_body
  rw [rd_getD 0 hk, ok_bind, hbin, ok_bind, rdI_getD 0 hidx, ok_bind, wrI_ofNat _ hidx]

/-- The single-threaded loop over the data indices `[i, i + n)`: the count of
bin `m` grows by the number of measurements of that range in bin `m`. -/
theorem single_threaded_loop_ok (g : Globals) (htable : table_ok g) :
    ∀ (n i : Nat) (counts : List Int), i + n ≤ g.data.length →
      counts.length = g.bin_count →
      ∃ counts2, for_up (single_threaded_body g.data g.bin_maxes g.bin_count g.min_meas)
          n i counts = .ok counts2 ∧ counts2.length = g.bin_count ∧
        ∀ m, m < g.bin_count →
          counts2.getD m 0 = counts.getD m 0 +
            (slice_population g.bin_maxes g.min_meas g.data i n m : Int) := by
  intro n
  induction n with
  | zero =>
    intro i counts _ hlen
    refine ⟨counts, rfl, hlen, fun m _ => ?_⟩
    simp [slice_population]
  | succ n ih =>
    intro i counts hdata hlen
    obtain ⟨b, hb, hbin, huniq⟩ := Which_bin_in_range g htable i (by omega)
    have hbody := single_threaded_body_ok g i b counts (by omega) hbin (by omega)
    obtain ⟨counts2, hrun, hlen2, hval⟩ := ih (i + 1) (counts.set b (counts.getD b 0 + 1))
      (by omega) (by rw [List.length_set]; exact hlen)
    refine ⟨counts2, ?_, hlen2, ?_⟩
    · rw [for_up, hbody]
      exact hrun
    · intro m hm
      rw [hval m hm, getD_set_int counts b m _ (by omega),
        slice_population_succ g.bin_maxes g.min_meas g.data i n m]
      have hin := huniq m hm
      by_cases hmb : m = b
      · subst hmb
        rw [if_pos rfl, if_pos (hin.mpr rfl)]
        push_cast
        ring
      · rw [if_neg (fun h => hmb h.symm), if_neg (fun h => hmb (hin.mp h))]
        push_cast
        ring

/-- From a state with a sound table and an all-zero worker-local matrix, both
phases of all workers leave in `bin_counts` what the single-threaded loop
computes from all-zero counts. -/
theorem run_threads_eq_single_threaded (g : Globals) (locals consolidations : List Nat)
    (htable : table_ok g) (ht : 1 ≤ g.thread_count)
    (hdata : g.data.length = g.data_count)
    (hlocal : g.local_bins.length = g.bin_count * g.thread_count)
    (hcounts : g.bin_counts.length = g.bin_count)
    (hl : locals.Perm (List.range g.thread_count))
    (hc : consolidations.Perm (List.range g.thread_count))
    (hzero : ∀ c ∈ g.local_bins, c = 0)
    (counts0 : List Int) (hlen0 : counts0.length = g.bin_count) (hzero0 : ∀ c ∈ counts0, c = 0) :
    ∃ g2 counts, run_threads locals consolidations g = .ok g2 ∧
      single_threaded_counts g.data g.bin_maxes g.bin_count g.min_meas g.data_count counts0 =
        .ok counts ∧
      g2.bin_counts = counts := by
  obtain ⟨g2, hrun, hlen2, hval2⟩ :=
    run_threads_counts g locals consolidations htable ht hdata hlocal hcounts hl hc
  obtain ⟨counts, hrun1, hlen1, hval1⟩ :=
    single_threaded_loop_ok g htable g.data_count 0 counts0 (by omega) hlen0
  refine ⟨g2, counts, hrun, hrun1, ?_⟩
  apply List.ext_getElem?
  intro m
  by_cases hm : m < g.bin_count
  · rw [hval2 m hm, column_total_zero _ _ _ _ hzero, add_zero]
    have h1 := hval1 m hm
    have h0 : counts0.getD m 0 = 0 := by
      rw [List.getD_eq_getElem _ _ (by omega)]
      exact hzero0 _ (List.getElem_mem _)
    rw [h0, zero_add, ← bin_population_eq, List.getD_eq_getElem _ _ (by omega)] at h1
    rw [List.getElem?_eq_getElem (by omega), h1]
  · rw [List.getElem?_eq_none (by omega), List.getElem?_eq_none (by omega)]


/-- The counts `Gen_bins` returns are all zero. -/
theorem Gen_bins_zero_counts (min_meas max_meas : ℚ) (bin_count : Nat)
    (m_bin_maxes : List ℚ) (m_bin_counts : List Int)
    (h1 : m_bin_maxes.length = bin_count) (h2 : m_bin_counts.length = bin_count)
    (bm : List ℚ) (bc : List Int)
    (hgen : Gen_bins min_meas max_meas m_bin_maxes m_bin_counts bin_count = .ok (bm, bc)) :
    ∀ c ∈ bc, c = 0 := by
  obtain ⟨bm2, bc2, hrun, _, hl2, _, hv2⟩ :=
    Gen_bins_loop min_meas ((max_meas - min_meas) / (bin_count : ℚ)) bin_count 0
      m_bin_maxes m_bin_counts (by omega) (by omega)
  unfold Gen_bins at hgen
  simp only at hgen
  rw [hrun] at hgen
  have hbc : bc2 = bc := by
    injection hgen with h
    exact (Prod.mk.inj h).2
  subst hbc
  intro c hc
  obtain ⟨j, hj⟩ := List.mem_iff_getElem?.mp hc
  have hjlt : j < bc2.length := by
    by_contra hcon
    rw [List.getElem?_eq_none (by omega)] at hj
    cases hj
  rw [hv2 j, if_pos (by omega)] at hj
  exact (Option.some.inj hj).symm

/-- C17: for a valid configuration, measurements in `[min, max)` and a block
for `local_bins` that is all zero before the workers start, for every
`thread_count >= 1` the `bin_counts` left by both phases of all workers are the
`bin_counts` the single-threaded loop of lines 112-115 computes from the
all-zero counts of `Gen_bins`; the latter does not mention `thread_count`, so
the result is the same for every number of workers. -/
theorem main_refines_single_threaded (bin_count : Nat) (min_meas max_meas : ℚ)
    (data_count thread_count : Nat)
    (m_bin_maxes : List ℚ) (m_bin_counts : List Int) (data : List ℚ) (m_local_bins : List Int)
    (hb : 1 ≤ bin_count) (hlt : min_meas < max_meas) (ht : 1 ≤ thread_count)
    (halloc : Allocated bin_count data_count thread_count m_bin_maxes m_bin_counts data
      m_local_bins)
    (hrange : ∀ x ∈ data, min_meas ≤ x ∧ x < max_meas)
    (hzero : ∀ c ∈ m_local_bins, c = 0) :
    ∃ g counts,
      main bin_count min_meas max_meas data_count thread_count m_bin_maxes m_bin_counts data
        m_local_bins = .ok g ∧
      main_single_threaded bin_count min_meas max_meas data_count m_bin_maxes m_bin_counts
        data = .ok counts ∧
      g.bin_counts = counts := by
  obtain ⟨ha1, ha2, ha3, ha4⟩ := halloc
  obtain ⟨bm, bc, hgen, hl1, hl2, hmono, hlast⟩ :=
    Gen_bins_sound min_meas max_meas bin_count m_bin_maxes m_bin_counts hlt hb ha1 ha2
  have hz := Gen_bins_zero_counts min_meas max_meas bin_count m_bin_maxes m_bin_counts ha1 ha2
    bm bc hgen
  let g0 : Globals :=
    { local_bins := m_local_bins, data := data, bin_counts := bc,
      min_meas := min_meas, max_meas := max_meas, bin_maxes := bm,
      bin_count := bin_count, thread_count := thread_count, data_count := data_count }
  have htable : table_ok g0 := by
    refine ⟨hb, hl1, hmono, ?_⟩
    intro k hk
    have hk2 : k < data.length := hk
    have hmem : data.getD k 0 ∈ data := by
      rw [List.getD_eq_getElem _ _ hk2]
      exact List.getElem_mem hk2
    show min_meas ≤ data.getD k 0 ∧ data.getD k 0 < upper_bound bm (bin_count - 1)
    rw [hlast]
    exact hrange _ hmem
  obtain ⟨g, counts, hrun, hsingle, heq⟩ := run_threads_eq_single_threaded g0
    (List.range thread_count) (List.range thread_count) htable ht ha3 ha4 hl2
    (List.Perm.refl _) (List.Perm.refl _) hzero bc hl2 hz
  refine ⟨g, counts, ?_, ?_, heq⟩
  · unfold main
    rw [hgen]
    exact hrun
  · unfold main_single_threaded
    rw [hgen]
    exact hsingle

theorem main_refines_single_threaded_witness :
    ∃ g counts,
      main 2 0 1 4 2 [9, 9] [5, 5] [1/4, 3/4, 1/8, 7/8] [0, 0, 0, 0] = .ok g ∧
      main_single_threaded 2 0 1 4 [9, 9] [5, 5] [1/4, 3/4, 1/8, 7/8] = .ok counts ∧
      g.bin_counts = counts :=
  main_refines_single_threaded 2 0 1 4 2 [9, 9] [5, 5] [1/4, 3/4, 1/8, 7/8] [0, 0, 0, 0]
    (by decide) (by norm_num) (by decide) (by simp [Allocated]) (by norm_num) (by simp)

end Histogram
